import Mathlib

/-!
gom: a Markdown fragment builder

A shallow embedding of `gom.go` and the properties of its formatters.

Conventions of the embedding.

* The program is followed at two levels.  On code points, a content is a Lean
  `String` and `[]rune(s)` and `for _, ch := range s` both see `s.data`.  On
  bytes, a Go `string` is a `GoString`, any list of bytes, and the same two
  constructs see `decodeRunes s`, where every undecodable byte is U+FFFD.  The
  definitions ending in `Bytes` are the byte-level ones.
* `strings.Builder` is the list of code points written so far.
* Go `int` indices are `Int`.  Every index of the program lies in
  `[-1, len]`, so no 64-bit wrap-around can occur.
* An index or slice expression that would panic yields `none`; a loop that
  exhausts its fuel yields `none` as well.
-/

namespace Gom

/-! ## Runtime and standard-library primitives -/

/-- The Go type `rune`. -/
abbrev Rune := Char

/-- The Go type `strings.Builder`: the code points written so far. -/
structure Builder where
  buf : List Rune
deriving Repr, DecidableEq

/-- The zero value `strings.Builder{}`. -/
def Builder.empty : Builder := ⟨[]⟩

/-- Method `(*Builder).WriteRune`. -/
def Builder.WriteRune (b : Builder) (r : Rune) : Builder := ⟨b.buf ++ [r]⟩

/-- Method `(*Builder).WriteString`. -/
def Builder.WriteString (b : Builder) (s : String) : Builder := ⟨b.buf ++ s.data⟩

/-- Method `(*Builder).String`. -/
def Builder.Str (b : Builder) : String := ⟨b.buf⟩

/-- The index expression `xs[i]`: `none` stands for the run-time panic. -/
def index {T : Type} (xs : List T) (i : Int) : Option T :=
  if 0 ≤ i then xs.get? i.toNat else none

/-- The indexed assignment `list[i] = v`: `none` stands for the run-time panic. -/
def assign {T : Type} (list : List T) (i : Int) (v : T) : Option (List T) :=
  if 0 ≤ i ∧ i < (list.length : Int) then some (list.set i.toNat v) else none

/-- The allocation `make([]string, n)`: `n` empty strings. -/
def make (n : Nat) : List String := List.replicate n ""

/-- The verb `%d` of `fmt.Sprintf` on an `int`: its decimal digits, with a sign if negative. -/
def fmtD : Int → String
  | Int.ofNat n => Nat.repr n
  | Int.negSucc n => "-" ++ Nat.repr (n + 1)

/-- The slice expression `runes[lo:hi]`: `none` stands for the run-time panic. -/
def slice (runes : List Rune) (lo hi : Int) : Option (List Rune) :=
  if 0 ≤ lo ∧ lo ≤ hi ∧ hi ≤ (runes.length : Int) then
    some ((runes.drop lo.toNat).take (hi.toNat - lo.toNat))
  else none

/-- Library function `strings.Join`. -/
def Join : List String → String → String
  | [], _ => ""
  | [a], _ => a
  | a :: b :: rest, sep => a ++ sep ++ Join (b :: rest) sep

/-! ## `ifElse` -/

/-- Function `ifElse` of `gom.go`. -/
def ifElse {T : Type} (t : Bool) (x y : T) : T :=
  if t then x else y

/-! ## Escaping -/

/-- The map literal `punctuationMap` of `gom.go`, entry by entry. -/
def punctuationMap : List (Rune × Bool) :=
  [ ('!', true), ('"', true), ('#', true), ('$', true), ('%', true), ('&', true),
    ('\'', true), ('(', true), (')', true), ('*', true), ('+', true), (',', true),
    ('-', true), ('.', true), ('/', true), (':', true), (';', true), ('<', true),
    ('=', true), ('>', true), ('?', true), ('@', true), ('[', true), ('\\', true),
    (']', true), ('^', true), ('_', true), ('\x60', true), ('\x7b', true), ('|', true),
    ('\x7d', true), ('~', true) ]

/-- The map read `m[ch]` on a `map[rune]bool`: an absent key reads as `false`. -/
def mapIndex (m : List (Rune × Bool)) (ch : Rune) : Bool :=
  match m.lookup ch with
  | some v => v
  | none => false

/-- One iteration of the `range` loop of `Escape`. -/
def escapeStep (escaped : Builder) (ch : Rune) : Builder :=
  let escaped := if mapIndex punctuationMap ch then escaped.WriteRune '\\' else escaped
  escaped.WriteRune ch

/-- Function `Escape` of `gom.go`. -/
def Escape (input : String) : String :=
  (input.data.foldl escapeStep Builder.empty).Str

/-! ## Boundary-aware wrapping -/

/-- First loop of `fmtAround`:
`for ; start < len(runes) && (runes[start] == ' ' || runes[start] == '\n'); start++`
with body `b.WriteRune(runes[start])`.  Returns the final `start` and builder. -/
def leadLoop (runes : List Rune) : Nat → Int → Builder → Option (Int × Builder)
  | 0, _, _ => none
  | fuel + 1, start, b =>
    if start < (runes.length : Int) then
      match index runes start with
      | none => none
      | some r =>
        if r == ' ' || r == '\n' then
          match index runes start with
          | none => none
          | some w => leadLoop runes fuel (start + 1) (b.WriteRune w)
        else some (start, b)
    else some (start, b)

/-- Second loop of `fmtAround`:
`for ; end >= 0 && (runes[end] == ' ' || runes[end] == '\n'); end--` with an
empty body.  Returns the final `end`. -/
def endLoop (runes : List Rune) : Nat → Int → Option Int
  | 0, _ => none
  | fuel + 1, e =>
    if 0 ≤ e then
      match index runes e with
      | none => none
      | some r =>
        if r == ' ' || r == '\n' then endLoop runes fuel (e - 1)
        else some e
    else some e

/-- Third loop of `fmtAround`:
`for i := end + 1; i < len(runes); i++` with body `b.WriteRune(runes[i])`. -/
def tailLoop (runes : List Rune) : Nat → Int → Builder → Option Builder
  | 0, _, _ => none
  | fuel + 1, i, b =>
    if i < (runes.length : Int) then
      match index runes i with
      | none => none
      | some w => tailLoop runes fuel (i + 1) (b.WriteRune w)
    else some b

/-- Function `fmtAround` of `gom.go`.  Each loop runs at most `len(runes)`
times, so `len(runes) + 1` units of fuel are given to each. -/
def fmtAround (around content : String) : Option String := do
  let b := Builder.empty
  let runes := content.data
  let (start, b) ← leadLoop runes (runes.length + 1) 0 b
  let b := if start < (runes.length : Int) then b.WriteString around else b
  let e ← endLoop runes (runes.length + 1) ((runes.length : Int) - 1)
  let b ←
    if start ≤ e then do
      let core ← slice runes start (e + 1)
      pure ((b.WriteString (String.mk core)).WriteString around)
    else pure b
  let b ← tailLoop runes (runes.length + 1) (e + 1) b
  pure b.Str

/-! ## Constants and formatters -/

/-- Variable `HR` of `gom.go`. -/
def HR : String := "\n\n---\n\n"

/-- Variable `L` of `gom.go`. -/
def L : String := "\n"

/-- Function `Doc` of `gom.go`. -/
def Doc (nodes : List String) : String := Join nodes ""

/-- Function `H1` of `gom.go`: `fmt.Sprintf("# %s\n", strings.Join(nodes, ""))`. -/
def H1 (nodes : List String) : String := "# " ++ Join nodes "" ++ "\n"

/-- Function `H2` of `gom.go`. -/
def H2 (nodes : List String) : String := "## " ++ Join nodes "" ++ "\n"

/-- Function `H3` of `gom.go`. -/
def H3 (nodes : List String) : String := "### " ++ Join nodes "" ++ "\n"

/-- Function `H4` of `gom.go`. -/
def H4 (nodes : List String) : String := "#### " ++ Join nodes "" ++ "\n"

/-- Function `H5` of `gom.go`. -/
def H5 (nodes : List String) : String := "##### " ++ Join nodes "" ++ "\n"

/-- Function `H6` of `gom.go`. -/
def H6 (nodes : List String) : String := "###### " ++ Join nodes "" ++ "\n"

/-- Function `Italic` of `gom.go`. -/
def Italic (nodes : List String) : Option String := fmtAround "*" (Join nodes "")

/-- Function `Bold` of `gom.go`. -/
def Bold (nodes : List String) : Option String := fmtAround "**" (Join nodes "")

/-- Function `Quote` of `gom.go`. -/
def Quote (nodes : List String) : String := "> " ++ Join nodes "" ++ "\n"

/-- The loop `for i := 0; i < len(xs); i++ { list[i] = g(i, xs[i]) }`, which
`UL`, `OL` and `For` each run with their own right-hand side `g`. -/
def fillLoop {T : Type} (xs : List T) (g : Int → T → String) :
    Nat → Int → List String → Option (List String)
  | 0, _, _ => none
  | fuel + 1, i, list =>
    if i < (xs.length : Int) then
      match index xs i with
      | none => none
      | some x =>
        match assign list i (g i x) with
        | none => none
        | some list => fillLoop xs g fuel (i + 1) list
    else some list

/-- Function `UL` of `gom.go`; the right-hand side is `fmt.Sprintf("- %s", nodes[i])`. -/
def UL (nodes : List String) : Option String := do
  let list := make nodes.length
  let list ← fillLoop nodes (fun _ n => "- " ++ n) (nodes.length + 1) 0 list
  pure (Join list "\n")

/-- Function `OL` of `gom.go`; the right-hand side is
`fmt.Sprintf("%d. %s", i+1, nodes[i])`. -/
def OL (nodes : List String) : Option String := do
  let list := make nodes.length
  let list ← fillLoop nodes (fun i n => fmtD (i + 1) ++ ". " ++ n) (nodes.length + 1) 0 list
  pure (Join list "\n")

/-- Function `Task` of `gom.go`. -/
def Task (done : Bool) (nodes : List String) : String :=
  "- [" ++ ifElse done "x" " " ++ "] " ++ Join nodes "" ++ "\n"

/-- Function `Strikethrough` of `gom.go`. -/
def Strikethrough (nodes : List String) : Option String := fmtAround "~~" (Join nodes "")

/-- Function `Code` of `gom.go`. -/
def Code (text : String) : Option String := fmtAround "\x60" text

/-- Function `Link` of `gom.go`. -/
def Link (link text : String) : String := "[" ++ text ++ "](" ++ link ++ ")"

/-- Function `Img` of `gom.go`. -/
def Img (link text : String) : String := "![" ++ text ++ "](" ++ link ++ ")\n"

/-- Function `CodeBlock` of `gom.go`. -/
def CodeBlock (lang text : String) : String :=
  "\n\x60\x60\x60" ++ lang ++ "\n" ++ text ++ "\n\x60\x60\x60\n"

/-- Function `If` of `gom.go`. -/
def If (val : Bool) (nodes : List String) : String := ifElse val (Join nodes "") ""

/-- Function `IfElse` of `gom.go`. -/
def IfElse (val : Bool) (a b : String) : String := ifElse val a b

/-- Function `For` of `gom.go`. -/
def For {T : Type} (list : List T) (fn : T → String) : Option String := do
  let nodes := make list.length
  let nodes ← fillLoop list (fun _ x => fn x) (list.length + 1) 0 nodes
  pure (Join nodes "")

/-! ## Vocabulary of the specification -/

/-- A code point the wrapper treats as boundary whitespace: space or newline. -/
def isBlank (c : Char) : Bool := c == ' ' || c == '\n'

/-- The longest prefix made only of spaces and newlines. -/
def leadOf (s : List Char) : List Char := s.takeWhile isBlank

/-- The longest suffix made only of spaces and newlines. -/
def trailOf (s : List Char) : List Char := (s.reverse.takeWhile isBlank).reverse

/-- What is left between the leading and the trailing run. -/
def coreOf (s : List Char) : List Char :=
  ((s.dropWhile isBlank).reverse.dropWhile isBlank).reverse

/-- The leading run of a string: its longest prefix of spaces and newlines. -/
def lead (s : String) : String := String.mk (leadOf s.data)

/-- The core of a string: what lies between its leading and trailing run. -/
def core (s : String) : String := String.mk (coreOf s.data)

/-- The trailing run of a string: its longest suffix of spaces and newlines. -/
def trail (s : String) : String := String.mk (trailOf s.data)

/-- The content wrapped by the marker `m` inside its whitespace boundary. -/
def wrapped (m : String) (s : String) : String :=
  lead s ++ m ++ core s ++ m ++ trail s

/-- Whitespace in the Markdown sense (CommonMark "Unicode whitespace"): tab,
line feed, form feed, carriage return and the code points of category Zs. -/
def isMarkdownWhitespace (c : Char) : Bool :=
  c == ' ' || c == '\t' || c == '\n' || c == '\x0c' || c == '\r' ||
  c.toNat == 0xA0 || c.toNat == 0x1680 || (0x2000 ≤ c.toNat && c.toNat ≤ 0x200A) ||
  c.toNat == 0x202F || c.toNat == 0x205F || c.toNat == 0x3000

/-- Both ends of a non-empty content `inner` are outside the whitespace class
`ws`: the code point a marker put before `inner` is followed by, and the one a
marker put after `inner` is preceded by. -/
def hugged (ws : Char → Bool) (inner : String) : Bool :=
  match inner.data.head?, inner.data.getLast? with
  | some a, some z => !ws a && !ws z
  | _, _ => false

/-- Membership in the set of ASCII punctuation, by code-point ranges. -/
def isPunctuation (c : Char) : Bool :=
  (33 ≤ c.toNat && c.toNat ≤ 47) || (58 ≤ c.toNat && c.toNat ≤ 64) ||
  (91 ≤ c.toNat && c.toNat ≤ 96) || (123 ≤ c.toNat && c.toNat ≤ 126)

/-- The 32 ASCII punctuation characters, in code-point order. -/
def punctuationChars : List Char :=
  "!\"#$%&\x27()*+,-./:;<=>?@[\\]^_\x60\x7b|\x7d~".data

/-- What escaping is to emit for one code point: a backslash and the code
point when it is punctuation, the code point alone otherwise. -/
def escapeRune (c : Char) : List Char :=
  if c ∈ punctuationChars then ['\\', c] else [c]

/-- The left-to-right scan that drops each backslash and keeps the code point
following it verbatim. -/
def unescapeRunes : List Char → List Char
  | [] => []
  | [c] => if c = '\\' then [] else [c]
  | c :: d :: rest =>
    if c = '\\' then d :: unescapeRunes rest else c :: unescapeRunes (d :: rest)

/-- The scan `unescapeRunes` on a string. -/
def unescape (s : String) : String := String.mk (unescapeRunes s.data)

/-! ## Go strings as byte sequences

A Go `string` is any sequence of bytes.  The definitions above follow the
program on the code points of its inputs; the definitions of this section follow
it on the bytes, with the decoding that `[]rune(s)` and `range s` perform and
the encoding that `WriteRune` and `string(runes)` perform. -/

/-- The Go type `byte`. -/
abbrev Byte := Fin 256

/-- The Go type `string`: a sequence of bytes, valid UTF-8 or not. -/
abbrev GoString := List Byte

/-- The conversion `byte(n)`, which keeps the low eight bits. -/
def byte (n : Nat) : Byte := ⟨n % 256, Nat.mod_lt _ (by decide)⟩

/-- Constant `utf8.RuneError`, U+FFFD. -/
def RuneError : Rune := Char.ofNat 0xFFFD

/-- Library function `utf8.AppendRune` on a valid rune: its UTF-8 encoding. -/
def encodeRune (r : Rune) : List Byte :=
  if r.toNat ≤ 0x7F then [byte r.toNat]
  else if r.toNat ≤ 0x7FF then [byte (0xC0 + r.toNat / 64), byte (0x80 + r.toNat % 64)]
  else if r.toNat ≤ 0xFFFF then
    [byte (0xE0 + r.toNat / 4096), byte (0x80 + r.toNat / 64 % 64), byte (0x80 + r.toNat % 64)]
  else
    [byte (0xF0 + r.toNat / 262144), byte (0x80 + r.toNat / 4096 % 64),
     byte (0x80 + r.toNat / 64 % 64), byte (0x80 + r.toNat % 64)]

/-- Lower bound that the UTF-8 decoder accepts for the second byte after `s0`. -/
def acceptLo (s0 : Nat) : Nat :=
  if s0 = 0xE0 then 0xA0 else if s0 = 0xF0 then 0x90 else 0x80

/-- Upper bound that the UTF-8 decoder accepts for the second byte after `s0`. -/
def acceptHi (s0 : Nat) : Nat :=
  if s0 = 0xED then 0x9F else if s0 = 0xF4 then 0x8F else 0xBF

/-- Library function `utf8.DecodeRuneInString`: the first rune of `s` and its
width in bytes; an undecodable byte gives `(RuneError, 1)`. -/
def decodeRune : List Byte → Rune × Nat
  | [] => (RuneError, 0)
  | s0 :: rest =>
    if s0.val < 0x80 then (Char.ofNat s0.val, 1)
    else if s0.val < 0xC2 ∨ 0xF4 < s0.val then (RuneError, 1)
    else
      match rest with
      | [] => (RuneError, 1)
      | s1 :: rest1 =>
        if s1.val < acceptLo s0.val ∨ acceptHi s0.val < s1.val then (RuneError, 1)
        else if s0.val ≤ 0xDF then (Char.ofNat (s0.val % 32 * 64 + s1.val % 64), 2)
        else
          match rest1 with
          | [] => (RuneError, 1)
          | s2 :: rest2 =>
            if s2.val < 0x80 ∨ 0xBF < s2.val then (RuneError, 1)
            else if s0.val ≤ 0xEF then
              (Char.ofNat (s0.val % 16 * 4096 + s1.val % 64 * 64 + s2.val % 64), 3)
            else
              match rest2 with
              | [] => (RuneError, 1)
              | s3 :: _ =>
                if s3.val < 0x80 ∨ 0xBF < s3.val then (RuneError, 1)
                else
                  (Char.ofNat (s0.val % 8 * 262144 + s1.val % 64 * 4096 + s2.val % 64 * 64
                    + s3.val % 64), 4)

/-- The decoding loop behind `[]rune(s)` and `range s`: one rune per step, each
step moving on by the width of its rune. -/
def decodeLoop : Nat → List Byte → List Rune
  | 0, _ => []
  | fuel + 1, s =>
    match s with
    | [] => []
    | _ :: _ => (decodeRune s).1 :: decodeLoop fuel (s.drop (decodeRune s).2)

/-- The conversion `[]rune(s)`, also the runes that `range s` visits.  Every
step consumes at least one byte, so `len(s)` units of fuel are enough. -/
def decodeRunes (s : GoString) : List Rune := decodeLoop s.length s

/-- The conversion `string(runes)`. -/
def encodeRunes (runes : List Rune) : GoString := runes.flatMap encodeRune

/-- The bytes of a string of code points: a Go string literal. -/
def utf8 (s : String) : GoString := encodeRunes s.data

/-- The Go type `strings.Builder` on bytes. -/
structure ByteBuilder where
  buf : List Byte
deriving Repr, DecidableEq

/-- The zero value `strings.Builder{}`. -/
def ByteBuilder.empty : ByteBuilder := ⟨[]⟩

/-- Method `(*Builder).WriteRune`: appends the encoding of the rune. -/
def ByteBuilder.WriteRune (b : ByteBuilder) (r : Rune) : ByteBuilder :=
  ⟨b.buf ++ encodeRune r⟩

/-- Method `(*Builder).WriteString`: appends the bytes as they are. -/
def ByteBuilder.WriteString (b : ByteBuilder) (s : GoString) : ByteBuilder := ⟨b.buf ++ s⟩

/-- Method `(*Builder).String`. -/
def ByteBuilder.Str (b : ByteBuilder) : GoString := b.buf

/-- Library function `strings.Join` on byte strings. -/
def JoinBytes : List GoString → GoString → GoString
  | [], _ => []
  | [a], _ => a
  | a :: b :: rest, sep => a ++ sep ++ JoinBytes (b :: rest) sep

/-- One iteration of the `range` loop of `Escape`, on a byte builder. -/
def escapeStepBytes (escaped : ByteBuilder) (ch : Rune) : ByteBuilder :=
  let escaped := if mapIndex punctuationMap ch then escaped.WriteRune '\\' else escaped
  escaped.WriteRune ch

/-- Function `Escape` of `gom.go` on a Go byte string. -/
def EscapeBytes (input : GoString) : GoString :=
  ((decodeRunes input).foldl escapeStepBytes ByteBuilder.empty).Str

/-- First loop of `fmtAround`, writing to a byte builder. -/
def leadLoopBytes (runes : List Rune) : Nat → Int → ByteBuilder → Option (Int × ByteBuilder)
  | 0, _, _ => none
  | fuel + 1, start, b =>
    if start < (runes.length : Int) then
      match index runes start with
      | none => none
      | some r =>
        if r == ' ' || r == '\n' then
          match index runes start with
          | none => none
          | some w => leadLoopBytes runes fuel (start + 1) (b.WriteRune w)
        else some (start, b)
    else some (start, b)

/-- Third loop of `fmtAround`, writing to a byte builder. -/
def tailLoopBytes (runes : List Rune) : Nat → Int → ByteBuilder → Option ByteBuilder
  | 0, _, _ => none
  | fuel + 1, i, b =>
    if i < (runes.length : Int) then
      match index runes i with
      | none => none
      | some w => tailLoopBytes runes fuel (i + 1) (b.WriteRune w)
    else some b

/-- Function `fmtAround` of `gom.go` on Go byte strings: `runes` is
`[]rune(content)`, the marker is written byte for byte, and the core is written
as `string(runes[start : end+1])`. -/
def fmtAroundBytes (around content : GoString) : Option GoString := do
  let b := ByteBuilder.empty
  let runes := decodeRunes content
  let (start, b) ← leadLoopBytes runes (runes.length + 1) 0 b
  let b := if start < (runes.length : Int) then b.WriteString around else b
  let e ← endLoop runes (runes.length + 1) ((runes.length : Int) - 1)
  let b ←
    if start ≤ e then do
      let core ← slice runes start (e + 1)
      pure ((b.WriteString (encodeRunes core)).WriteString around)
    else pure b
  let b ← tailLoopBytes runes (runes.length + 1) (e + 1) b
  pure b.Str

/-- Function `Italic` of `gom.go` on Go byte strings. -/
def ItalicBytes (nodes : List GoString) : Option GoString :=
  fmtAroundBytes (utf8 "*") (JoinBytes nodes [])

/-- Function `Bold` of `gom.go` on Go byte strings. -/
def BoldBytes (nodes : List GoString) : Option GoString :=
  fmtAroundBytes (utf8 "**") (JoinBytes nodes [])

/-- Function `Strikethrough` of `gom.go` on Go byte strings. -/
def StrikethroughBytes (nodes : List GoString) : Option GoString :=
  fmtAroundBytes (utf8 "~~") (JoinBytes nodes [])

/-- Function `Code` of `gom.go` on Go byte strings. -/
def CodeBytes (text : GoString) : Option GoString := fmtAroundBytes (utf8 "\x60") text

/-- A byte the wrapper treats as boundary whitespace: space or newline. -/
def isBlankByte (b : Byte) : Bool := b.val == 0x20 || b.val == 0x0A

/-- The longest prefix of a byte string made only of spaces and newlines. -/
def leadBytes (s : GoString) : GoString := s.takeWhile isBlankByte

/-- The longest suffix of a byte string made only of spaces and newlines. -/
def trailBytes (s : GoString) : GoString := (s.reverse.takeWhile isBlankByte).reverse

/-- What is left of a byte string between its leading and its trailing run. -/
def coreBytes (s : GoString) : GoString :=
  ((s.dropWhile isBlankByte).reverse.dropWhile isBlankByte).reverse

/-- A byte string is valid UTF-8 when encoding its decoded runes gives it back:
an undecodable byte would come back as the three bytes of U+FFFD. -/
@[reducible] def ValidUTF8 (s : GoString) : Prop := encodeRunes (decodeRunes s) = s

/-- The scan that drops each backslash and keeps the character following it,
on a Go byte string. -/
def unescapeBytes (s : GoString) : GoString :=
  encodeRunes (unescapeRunes (decodeRunes s))

end Gom

namespace Gom

/-! ## Escaping: proofs -/

theorem mapIndex_eq_decide_mem (m : List (Rune × Bool)) (hm : ∀ p ∈ m, p.2 = true) (c : Rune) :
    mapIndex m c = decide (c ∈ m.map Prod.fst) := by
  induction m with
  | nil => simp [mapIndex, List.lookup]
  | cons p rest ih =>
    obtain ⟨k, v⟩ := p
    have hv : v = true := hm (k, v) (List.mem_cons_self _ _)
    have hrest : ∀ q ∈ rest, q.2 = true := fun q hq => hm q (List.mem_cons_of_mem _ hq)
    have ih2 := ih hrest
    by_cases hck : c = k
    · subst hck
      simp [mapIndex, List.lookup, hv]
    · have hbeq : (c == k) = false := by simpa using hck
      simp only [mapIndex, List.lookup, hbeq] at ih2 ⊢
      rw [ih2]
      simp [hck]

theorem punctuationMap_values : ∀ p ∈ punctuationMap, p.2 = true := by decide

theorem punctuationMap_keys : punctuationMap.map Prod.fst = punctuationChars := by decide

theorem mapIndex_punctuationMap (c : Rune) :
    mapIndex punctuationMap c = decide (c ∈ punctuationChars) := by
  rw [mapIndex_eq_decide_mem _ punctuationMap_values, punctuationMap_keys]

theorem escapeStep_buf (b : Builder) (c : Rune) :
    (escapeStep b c).buf = b.buf ++ escapeRune c := by
  unfold escapeStep escapeRune
  rw [mapIndex_punctuationMap]
  by_cases h : c ∈ punctuationChars <;> simp [h, Builder.WriteRune]

theorem foldl_escapeStep_buf (l : List Rune) (b : Builder) :
    (l.foldl escapeStep b).buf = b.buf ++ l.flatMap escapeRune := by
  induction l generalizing b with
  | nil => simp
  | cons c rest ih =>
    rw [List.foldl_cons, ih, escapeStep_buf]
    simp [List.flatMap_cons, List.append_assoc]

theorem Escape_data (input : String) : (Escape input).data = input.data.flatMap escapeRune := by
  unfold Escape Builder.Str
  rw [foldl_escapeStep_buf]
  simp [Builder.empty]

theorem mem_punctuationChars_iff (c : Char) :
    c ∈ punctuationChars ↔ isPunctuation c = true := by
  constructor
  · intro h
    revert c
    decide
  · intro h
    have hc : c = Char.ofNat c.toNat := (Char.ofNat_toNat c).symm
    have hr : (33 ≤ c.toNat ∧ c.toNat ≤ 47) ∨ (58 ≤ c.toNat ∧ c.toNat ≤ 64) ∨
        (91 ≤ c.toNat ∧ c.toNat ≤ 96) ∨ (123 ≤ c.toNat ∧ c.toNat ≤ 126) := by
      simpa [isPunctuation, or_assoc] using h
    generalize c.toNat = n at hc hr
    subst hc
    rcases hr with ⟨h1, h2⟩ | ⟨h1, h2⟩ | ⟨h1, h2⟩ | ⟨h1, h2⟩ <;>
      interval_cases n <;> decide

theorem isPunctuation_iff (c : Char) :
    isPunctuation c = true ↔
      (33 ≤ c.toNat ∧ c.toNat ≤ 47) ∨ (58 ≤ c.toNat ∧ c.toNat ≤ 64) ∨
      (91 ≤ c.toNat ∧ c.toNat ≤ 96) ∨ (123 ≤ c.toNat ∧ c.toNat ≤ 126) := by
  simp [isPunctuation, or_assoc]

theorem char_classes_toNat (c : Char)
    (h : c.isAlpha = true ∨ c.isDigit = true ∨ c.isWhitespace = true ∨ 128 ≤ c.toNat) :
    (65 ≤ c.toNat ∧ c.toNat ≤ 90) ∨ (97 ≤ c.toNat ∧ c.toNat ≤ 122) ∨
    (48 ≤ c.toNat ∧ c.toNat ≤ 57) ∨ c.toNat = 32 ∨ (9 ≤ c.toNat ∧ c.toNat ≤ 13) ∨
    128 ≤ c.toNat := by
  simp only [Char.isAlpha, Char.isUpper, Char.isLower, Char.isDigit, Char.isWhitespace,
    Bool.or_eq_true, Bool.and_eq_true, decide_eq_true_eq, ge_iff_le, UInt32.le_def,
    Fin.le_def] at h
  simp only [Char.toNat, UInt32.toNat]
  rcases h with (h | h) | h | h | h
  · left; exact h
  · right; left; exact h
  · right; right; left; exact h
  · rcases h with ((h | h) | h) | h <;> subst h <;> decide
  · right; right; right; right; right; exact h

theorem length_flatMap_escapeRune (l : List Char) :
    (l.flatMap escapeRune).length = l.length + l.countP (fun c => decide (c ∈ punctuationChars)) := by
  induction l with
  | nil => simp
  | cons c rest ih =>
    rw [List.flatMap_cons, List.length_append, ih, List.countP_cons, List.length_cons]
    by_cases h : c ∈ punctuationChars <;> simp [escapeRune, h] <;> omega

/-- C1: for every input string, `Escape` returns the in-order concatenation, over
the code points `c` of the input, of a backslash followed by `c` when `c` is one
of the punctuation characters and of `c` alone otherwise. -/
theorem Escape_eq_concat (input : String) :
    Escape input =
      String.mk (input.data.flatMap fun c => if c ∈ punctuationChars then ['\\', c] else [c]) := by
  apply String.ext
  exact Escape_data input

/-- C2: the length of `Escape input`, counted in code points, is the length of
the input plus the number of occurrences of punctuation characters in it. -/
theorem Escape_length (input : String) :
    (Escape input).length =
      input.length + input.data.countP (fun c => decide (c ∈ punctuationChars)) := by
  show (Escape input).data.length = input.data.length + _
  rw [Escape_data, length_flatMap_escapeRune]

/-- C3: the set `Escape` consults is exactly the 32 ASCII punctuation characters:
a code point is a key mapped to `true` iff it lies in 33..47, 58..64, 91..96 or
123..126, iff it is one of the 32 listed characters; underscore and backtick are
members, and no letter, digit, whitespace or non-ASCII code point is. -/
theorem punctuationMap_exact :
    (∀ c : Char, mapIndex punctuationMap c = true ↔
      (33 ≤ c.toNat ∧ c.toNat ≤ 47) ∨ (58 ≤ c.toNat ∧ c.toNat ≤ 64) ∨
      (91 ≤ c.toNat ∧ c.toNat ≤ 96) ∨ (123 ≤ c.toNat ∧ c.toNat ≤ 126)) ∧
    (∀ c : Char, mapIndex punctuationMap c = true ↔ c ∈ punctuationChars) ∧
    punctuationChars.length = 32 ∧ punctuationChars.Nodup ∧
    mapIndex punctuationMap '_' = true ∧ mapIndex punctuationMap '\x60' = true ∧
    (∀ c : Char,
      c.isAlpha = true ∨ c.isDigit = true ∨ c.isWhitespace = true ∨ 128 ≤ c.toNat →
      mapIndex punctuationMap c = false) := by
  have key : ∀ c : Char, mapIndex punctuationMap c = true ↔
      (33 ≤ c.toNat ∧ c.toNat ≤ 47) ∨ (58 ≤ c.toNat ∧ c.toNat ≤ 64) ∨
      (91 ≤ c.toNat ∧ c.toNat ≤ 96) ∨ (123 ≤ c.toNat ∧ c.toNat ≤ 126) := by
    intro c
    rw [mapIndex_punctuationMap, decide_eq_true_iff, mem_punctuationChars_iff,
      isPunctuation_iff]
  refine ⟨key, ?_, by decide, by decide, by decide, by decide, ?_⟩
  · intro c
    rw [mapIndex_punctuationMap, decide_eq_true_iff]
  · intro c hc
    have hr := char_classes_toNat c hc
    cases hb : mapIndex punctuationMap c with
    | false => rfl
    | true =>
      have := (key c).1 hb
      omega

/-! ## Boundary-aware wrapping: the three loops -/

theorem index_append_cons {T : Type} (pre post : List T) (c : T) :
    index (pre ++ c :: post) (pre.length : Int) = some c := by
  have h : (pre ++ c :: post).get? pre.length = some c := by
    rw [List.get?_eq_getElem?, List.getElem?_append_right (le_refl _)]
    simp
  have h0 : (0 : Int) ≤ (pre.length : Int) := Int.ofNat_nonneg _
  rw [index, if_pos h0, Int.toNat_ofNat]
  exact h

theorem isBlank_iff (c : Char) : isBlank c = true ↔ (c = ' ' ∨ c = '\n') := by
  simp [isBlank]

theorem leadLoop_spec (lead rest : List Rune)
    (hlead : ∀ c ∈ lead, isBlank c = true)
    (hrest : ∀ c, rest.head? = some c → isBlank c = false) :
    ∀ (pre : List Rune) (b : Builder) (fuel : Nat), lead.length < fuel →
      leadLoop (pre ++ lead ++ rest) fuel (pre.length : Int) b =
        some (((pre.length + lead.length : Nat) : Int), ⟨b.buf ++ lead⟩) := by
  induction lead with
  | nil =>
    intro pre b fuel hfuel
    obtain ⟨f, rfl⟩ : ∃ f, fuel = f + 1 := ⟨fuel - 1, by simp at hfuel; omega⟩
    cases rest with
    | nil => simp [leadLoop]
    | cons r rs =>
      have hr : isBlank r = false := hrest r rfl
      have hr2 : (r == ' ' || r == '\n') = false := hr
      simp only [leadLoop, List.append_nil, index_append_cons, hr2]
      simp
  | cons c l ih =>
    intro pre b fuel hfuel
    obtain ⟨f, rfl⟩ : ∃ f, fuel = f + 1 := ⟨fuel - 1, by simp at hfuel; omega⟩
    have hc : (c == ' ' || c == '\n') = true := hlead c (List.mem_cons_self _ _)
    have hl : ∀ x ∈ l, isBlank x = true := fun x hx => hlead x (List.mem_cons_of_mem _ hx)
    have hlist : pre ++ c :: l ++ rest = pre ++ c :: (l ++ rest) := by simp
    have hlist2 : pre ++ c :: (l ++ rest) = (pre ++ [c]) ++ l ++ rest := by simp
    have hlt : (pre.length : Int) < ((pre ++ c :: (l ++ rest)).length : Int) := by
      simp; omega
    rw [hlist]
    simp only [leadLoop, index_append_cons, hc, hlt, if_true]
    rw [hlist2]
    have := ih hl (pre ++ [c]) (b.WriteRune c) f (by simp at hfuel; omega)
    simp only [List.length_append, List.length_singleton, Nat.cast_add, Nat.cast_one] at this
    rw [this]
    simp [Builder.WriteRune, List.length_cons]
    omega

theorem endLoop_spec (init : List Rune)
    (hinit : ∀ c, init.getLast? = some c → isBlank c = false) (trail : List Rune) :
    (∀ c ∈ trail, isBlank c = true) →
    ∀ (post : List Rune) (fuel : Nat), trail.length < fuel →
      endLoop (init ++ trail ++ post) fuel (((init.length + trail.length : Nat) : Int) - 1) =
        some ((init.length : Int) - 1) := by
  induction trail using List.reverseRecOn with
  | nil =>
    intro _ post fuel hfuel
    obtain ⟨f, rfl⟩ : ∃ f, fuel = f + 1 := ⟨fuel - 1, by simp at hfuel; omega⟩
    rcases List.eq_nil_or_concat init with h | ⟨i0, z, h⟩
    · subst h
      simp [endLoop]
    · rw [List.concat_eq_append] at h
      subst h
      have hz : isBlank z = false := hinit z (by simp)
      have hz2 : (z == ' ' || z == '\n') = false := hz
      have hlist : i0 ++ [z] ++ [] ++ post = i0 ++ z :: post := by simp
      have he : (((i0 ++ [z]).length + ([] : List Rune).length : Nat) : Int) - 1
          = (i0.length : Int) := by simp
      have he2 : (((i0 ++ [z]).length : Nat) : Int) - 1 = (i0.length : Int) := by simp
      rw [hlist, he, he2]
      simp only [endLoop, index_append_cons, hz2]
      simp
  | append_singleton t c ih =>
    intro htrail post fuel hfuel
    obtain ⟨f, rfl⟩ : ∃ f, fuel = f + 1 := ⟨fuel - 1, by simp at hfuel; omega⟩
    have hc : (c == ' ' || c == '\n') = true := htrail c (by simp)
    have ht : ∀ x ∈ t, isBlank x = true := fun x hx => htrail x (by simp [hx])
    have hlist : init ++ (t ++ [c]) ++ post = (init ++ t) ++ c :: post := by simp
    have he : (((init.length + (t ++ [c]).length : Nat) : Int)) - 1
        = (((init ++ t).length : Nat) : Int) := by simp; omega
    have hlist2 : (init ++ t) ++ c :: post = init ++ t ++ ([c] ++ post) := by simp
    rw [hlist, he]
    simp only [endLoop, index_append_cons, hc, Int.ofNat_nonneg, Nat.cast_nonneg, if_true]
    rw [hlist2]
    have := ih ht ([c] ++ post) f (by simp at hfuel; omega)
    simp only [List.length_append, Nat.cast_add] at this ⊢
    rw [this]

theorem tailLoop_spec (tail : List Rune) :
    ∀ (pre : List Rune) (b : Builder) (fuel : Nat), tail.length < fuel →
      tailLoop (pre ++ tail) fuel (pre.length : Int) b = some ⟨b.buf ++ tail⟩ := by
  induction tail with
  | nil =>
    intro pre b fuel hfuel
    obtain ⟨f, rfl⟩ : ∃ f, fuel = f + 1 := ⟨fuel - 1, by simp at hfuel; omega⟩
    simp [tailLoop]
  | cons c l ih =>
    intro pre b fuel hfuel
    obtain ⟨f, rfl⟩ : ∃ f, fuel = f + 1 := ⟨fuel - 1, by simp at hfuel; omega⟩
    have hlt : (pre.length : Int) < ((pre ++ c :: l).length : Int) := by
      simp
    have hlist : pre ++ c :: l = (pre ++ [c]) ++ l := by simp
    simp only [tailLoop, index_append_cons, hlt, if_true]
    rw [hlist]
    have := ih (pre ++ [c]) (b.WriteRune c) f (by simp at hfuel; omega)
    simp only [List.length_append, List.length_singleton, Nat.cast_add, Nat.cast_one] at this
    rw [this]
    simp [Builder.WriteRune]

theorem slice_middle (lead core trail : List Rune) :
    slice (lead ++ core ++ trail) (lead.length : Int)
      (((lead.length + core.length : Nat) : Int)) = some core := by
  have h : (0 : Int) ≤ (lead.length : Int) ∧
      (lead.length : Int) ≤ ((lead.length + core.length : Nat) : Int) ∧
      ((lead.length + core.length : Nat) : Int) ≤ ((lead ++ core ++ trail).length : Int) := by
    simp
  rw [slice, if_pos h]
  have e : (((lead.length + core.length : Nat) : Int)).toNat - (lead.length : Int).toNat
      = core.length := by
    rw [Int.toNat_ofNat, Int.toNat_ofNat]; omega
  rw [e, Int.toNat_ofNat]
  simp

/-! ## Boundary-aware wrapping: `fmtAround` on a decomposed content -/

theorem fmtAround_decomposed (around : String) (lead core trail : List Char)
    (hlead : ∀ c ∈ lead, isBlank c = true) (htrail : ∀ c ∈ trail, isBlank c = true)
    (hne : core ≠ [])
    (hhead : ∀ c, core.head? = some c → isBlank c = false)
    (hlast : ∀ c, core.getLast? = some c → isBlank c = false) :
    fmtAround around (String.mk (lead ++ core ++ trail)) =
      some (String.mk (lead ++ around.data ++ core ++ around.data ++ trail)) := by
  have hcl : 0 < core.length := List.length_pos.mpr hne
  have h1 := leadLoop_spec lead (core ++ trail) hlead
    (by
      intro c hc
      apply hhead c
      cases core with
      | nil => exact absurd rfl hne
      | cons a as => simpa using hc)
    [] Builder.empty ((lead ++ core ++ trail).length + 1) (by simp; omega)
  have h2 := endLoop_spec (lead ++ core)
    (by
      intro c hc
      apply hlast c
      rw [List.getLast?_append_of_ne_nil _ hne] at hc
      exact hc)
    trail htrail [] ((lead ++ core ++ trail).length + 1) (by simp; omega)
  have h3 := tailLoop_spec trail (lead ++ core)
    ⟨lead ++ around.data ++ core ++ around.data⟩ ((lead ++ core ++ trail).length + 1)
    (by simp; omega)
  have h4 := slice_middle lead core trail
  simp only [List.nil_append, List.length_nil, Nat.zero_add, Nat.cast_zero,
    List.append_nil, Builder.empty, ← List.append_assoc] at h1 h2 h3
  have e2 : (((lead ++ core).length + trail.length : Nat) : Int) - 1
      = (((lead ++ core ++ trail).length : Nat) : Int) - 1 := by
    simp only [List.length_append]
  have e3 : (((lead ++ core).length : Nat) : Int) = (((lead ++ core).length : Nat) : Int) - 1 + 1 := by
    omega
  have e4 : ((lead.length + core.length : Nat) : Int) = (((lead ++ core).length : Nat) : Int) - 1 + 1 := by
    simp
  rw [e2] at h2
  rw [e3] at h3
  rw [e4] at h4
  have hlt : (lead.length : Int) < (((lead ++ core ++ trail).length : Nat) : Int) := by
    simp only [List.length_append]; push_cast; omega
  have hle : (lead.length : Int) ≤ (((lead ++ core).length : Nat) : Int) - 1 := by
    simp only [List.length_append]; push_cast; omega
  simp only [fmtAround, Builder.empty, Option.bind_eq_bind, Option.pure_def, Option.some_bind,
    h1, h2, h3, h4, hlt, hle, if_true, Builder.WriteString, Builder.Str]

theorem fmtAround_allBlank (around : String) (s : List Char)
    (hs : ∀ c ∈ s, isBlank c = true) :
    fmtAround around (String.mk s) = some (String.mk (s ++ s)) := by
  have h1 := leadLoop_spec s [] hs (by simp) [] Builder.empty (s.length + 1) (by omega)
  have h2 := endLoop_spec [] (by simp) s hs [] (s.length + 1) (by omega)
  have h3 := tailLoop_spec s [] ⟨s⟩ (s.length + 1) (by omega)
  simp only [List.nil_append, List.length_nil, Nat.zero_add, Nat.cast_zero,
    List.append_nil, Builder.empty] at h1 h2 h3
  have e3 : (0 : Int) = (0 : Int) - 1 + 1 := by omega
  rw [e3] at h3
  have hlt : ¬ ((s.length : Int) < (s.length : Int)) := by omega
  have hle : ¬ ((s.length : Int) ≤ (0 : Int) - 1) := by omega
  simp only [fmtAround, Builder.empty, Option.bind_eq_bind, Option.pure_def, Option.some_bind,
    h1, h2, h3, hlt, hle, if_false, Builder.WriteString, Builder.Str]

/-! ## The decomposition into leading run, core and trailing run -/

theorem takeWhile_append_of_exists {p : Char → Bool} (xs ys : List Char)
    (h : ∃ x ∈ xs, p x = false) : (xs ++ ys).takeWhile p = xs.takeWhile p := by
  induction xs with
  | nil => obtain ⟨x, hx, _⟩ := h; cases hx
  | cons a as ih =>
    by_cases ha : p a = true
    · obtain ⟨x, hx, hpx⟩ := h
      have hx2 : x ∈ as := by
        rcases List.mem_cons.1 hx with rfl | h2
        · rw [ha] at hpx; cases hpx
        · exact h2
      simp [List.takeWhile_cons, ha, ih ⟨x, hx2, hpx⟩]
    · simp [List.takeWhile_cons, ha]

theorem leadOf_blank (s : List Char) : ∀ c ∈ leadOf s, isBlank c = true :=
  fun _ hc => List.mem_takeWhile_imp hc

theorem trailOf_blank (s : List Char) : ∀ c ∈ trailOf s, isBlank c = true := by
  intro c hc
  have : c ∈ s.reverse.takeWhile isBlank := by simpa [trailOf] using hc
  exact List.mem_takeWhile_imp this

theorem exists_mem_dropWhile (s : List Char) (h : ∃ c ∈ s, isBlank c = false) :
    ∃ c ∈ s.dropWhile isBlank, isBlank c = false := by
  obtain ⟨c, hc, hb⟩ := h
  refine ⟨c, ?_, hb⟩
  have hs : c ∈ s.takeWhile isBlank ++ s.dropWhile isBlank := by
    rw [List.takeWhile_append_dropWhile]; exact hc
  rcases List.mem_append.1 hs with h1 | h2
  · have := List.mem_takeWhile_imp h1
    rw [hb] at this; cases this
  · exact h2

theorem trailOf_eq_of_exists (s : List Char) (h : ∃ c ∈ s, isBlank c = false) :
    trailOf s = trailOf (s.dropWhile isBlank) := by
  obtain ⟨c, hc, hb⟩ := exists_mem_dropWhile s h
  have hs : s.reverse = (s.dropWhile isBlank).reverse ++ (s.takeWhile isBlank).reverse := by
    rw [← List.reverse_append, List.takeWhile_append_dropWhile]
  unfold trailOf
  rw [hs, takeWhile_append_of_exists _ _ ⟨c, by simpa using hc, hb⟩]

theorem coreOf_append_trailOf (r : List Char) :
    (r.reverse.dropWhile isBlank).reverse ++ trailOf r = r := by
  unfold trailOf
  rw [← List.reverse_append, List.takeWhile_append_dropWhile, List.reverse_reverse]

theorem decomposition (s : List Char) (h : ∃ c ∈ s, isBlank c = false) :
    leadOf s ++ coreOf s ++ trailOf s = s := by
  rw [trailOf_eq_of_exists s h, List.append_assoc]
  unfold coreOf
  rw [coreOf_append_trailOf]
  exact List.takeWhile_append_dropWhile isBlank s

theorem coreOf_ne_nil (s : List Char) (h : ∃ c ∈ s, isBlank c = false) : coreOf s ≠ [] := by
  obtain ⟨c, hc, hb⟩ := exists_mem_dropWhile s h
  intro hnil
  have h1 : List.rdropWhile isBlank (s.dropWhile isBlank) = [] := hnil
  rw [List.rdropWhile_eq_nil_iff] at h1
  have := h1 c hc
  rw [hb] at this; cases this

theorem coreOf_getLast (s : List Char) :
    ∀ c, (coreOf s).getLast? = some c → isBlank c = false := by
  intro c hc
  have hne : List.rdropWhile isBlank (s.dropWhile isBlank) ≠ [] := by
    intro hnil
    have : coreOf s = [] := hnil
    rw [this] at hc; cases hc
  have h1 := List.rdropWhile_last_not isBlank (s.dropWhile isBlank) hne
  have h2 : (coreOf s).getLast? =
      some ((List.rdropWhile isBlank (s.dropWhile isBlank)).getLast hne) :=
    List.getLast?_eq_getLast _ hne
  rw [h2] at hc
  cases hc
  simpa using h1

theorem coreOf_head (s : List Char) :
    ∀ c, (coreOf s).head? = some c → isBlank c = false := by
  intro c hc
  have hpre : coreOf s ++ trailOf (s.dropWhile isBlank) = s.dropWhile isBlank :=
    coreOf_append_trailOf _
  have hd := List.head?_dropWhile_not isBlank s
  rw [← hpre] at hd
  cases hcore : coreOf s with
  | nil => rw [hcore] at hc; cases hc
  | cons a as =>
    rw [hcore] at hc hd
    simp only [List.head?_cons, Option.some.injEq] at hc
    subst hc
    simpa using hd

/-! ## The emphasis wrappers -/

theorem string_decomposition (s : String) (h : ∃ c ∈ s.data, isBlank c = false) :
    s = lead s ++ core s ++ trail s := by
  apply String.ext
  simp only [lead, core, trail, String.data_append]
  exact (decomposition s.data h).symm

theorem fmtAround_wrapped (around s : String) (h : ∃ c ∈ s.data, isBlank c = false) :
    fmtAround around s = some (wrapped around s) := by
  have hd := fmtAround_decomposed around (leadOf s.data) (coreOf s.data) (trailOf s.data)
    (leadOf_blank _) (trailOf_blank _) (coreOf_ne_nil _ h) (coreOf_head _) (coreOf_getLast _)
  rw [decomposition s.data h] at hd
  rw [show s = String.mk s.data from rfl, hd]
  congr 1

theorem Join_singleton (s sep : String) : Join [s] sep = s := rfl

/-- C5: on the content of three spaces the trailing loop starts again at index
0, so the wrappers return six spaces and not the content unchanged; only the
empty content passes through as it is.  No marker is emitted. -/
theorem emphasis_three_spaces_doubled :
    Bold ["   "] = some "      " ∧ Italic ["   "] = some "      " ∧
    Strikethrough ["   "] = some "      " ∧ Code "   " = some "      " ∧
    Bold [" \n"] = some " \n \n" ∧ Bold [""] = some "" := by
  decide

theorem hugged_core (s : String) (h : ∃ c ∈ s.data, isBlank c = false) :
    hugged isBlank (core s) = true := by
  have hne := coreOf_ne_nil s.data h
  have hh := coreOf_head s.data
  have hl := coreOf_getLast s.data
  unfold hugged core
  cases hhead : (coreOf s.data).head? with
  | none => rw [List.head?_eq_none_iff] at hhead; exact absurd hhead hne
  | some a =>
    cases hlast : (coreOf s.data).getLast? with
    | none => rw [List.getLast?_eq_none_iff] at hlast; exact absurd hlast hne
    | some z => simp [hh a hhead, hl z hlast]

/-- C6, as amended: when a wrapper emits its markers, the output is
`lead s ++ m ++ core s ++ m ++ trail s` and the first and the last code point of
`core s`, which are the ones next to the two markers, are neither a space nor a
newline. -/
theorem markers_hug_nonblank (around s : String) (h : ∃ c ∈ s.data, isBlank c = false) :
    fmtAround around s = some (lead s ++ around ++ core s ++ around ++ trail s) ∧
    hugged isBlank (core s) = true ∧
    Bold [s] = fmtAround "**" s ∧ Italic [s] = fmtAround "*" s ∧
    Strikethrough [s] = fmtAround "~~" s ∧ Code s = fmtAround "\x60" s :=
  ⟨fmtAround_wrapped around s h, hugged_core s h, rfl, rfl, rfl, rfl⟩

theorem markers_hug_nonblank_witness :
    (∃ c ∈ " a b\n".data, isBlank c = false) ∧
    fmtAround "**" " a b\n" = some " **a b**\n" ∧
    hugged isBlank "a b" = true ∧
    Bold [" a b\n"] = fmtAround "**" " a b\n" ∧ Italic [" a b\n"] = fmtAround "*" " a b\n" ∧
    Strikethrough [" a b\n"] = fmtAround "~~" " a b\n" ∧
    Code " a b\n" = fmtAround "\x60" " a b\n" :=
  ⟨⟨'a', by decide, by decide⟩, markers_hug_nonblank "**" " a b\n" ⟨'a', by decide, by decide⟩⟩

/-- C6, as stated, fails: `Bold` of a tab followed by `x` emits its markers
around the tab, so the code point right after the opening marker is a tab,
which is whitespace in the Markdown sense. -/
theorem markers_hug_markdown_whitespace_fails :
    Bold ["\tx"] = some "**\tx**" ∧
    Bold ["\tx"] = some (lead "\tx" ++ "**" ++ core "\tx" ++ "**" ++ trail "\tx") ∧
    lead "\tx" = "" ∧ core "\tx" = "\tx" ∧
    "**\tx**".data.get? 2 = some '\t' ∧ isMarkdownWhitespace '\t' = true ∧
    hugged isMarkdownWhitespace (core "\tx") = false := by
  decide

theorem fmtAround_rewrap (outer inner : String) (s : String)
    (h : ∃ c ∈ s.data, isBlank c = false)
    (hfirst : ∀ c, (inner.data ++ (coreOf s.data ++ inner.data)).head? = some c →
      isBlank c = false)
    (hlast : ∀ c, (inner.data ++ (coreOf s.data ++ inner.data)).getLast? = some c →
      isBlank c = false) :
    fmtAround outer (wrapped inner s) =
      some (lead s ++ outer ++ (inner ++ core s ++ inner) ++ outer ++ trail s) := by
  have hne : inner.data ++ (coreOf s.data ++ inner.data) ≠ [] := by
    have := coreOf_ne_nil s.data h
    simp [this]
  have hd := fmtAround_decomposed outer (leadOf s.data)
    (inner.data ++ (coreOf s.data ++ inner.data)) (trailOf s.data)
    (leadOf_blank _) (trailOf_blank _) hne hfirst hlast
  have e1 : wrapped inner s =
      String.mk (leadOf s.data ++ (inner.data ++ (coreOf s.data ++ inner.data)) ++ trailOf s.data) := by
    apply String.ext
    simp [wrapped, lead, core, trail, String.data_append]
  rw [e1, hd]
  congr 1
  apply String.ext
  simp [lead, core, trail, String.data_append]

theorem Bold_Bold (s : String) (h : ∃ c ∈ s.data, isBlank c = false) :
    (Bold [s]).bind (fun r => Bold [r]) =
      some (lead s ++ "****" ++ core s ++ "****" ++ trail s) := by
  have h1 : Bold [s] = some (wrapped "**" s) := fmtAround_wrapped "**" s h
  have h2 : Bold [wrapped "**" s] =
      some (lead s ++ "**" ++ ("**" ++ core s ++ "**") ++ "**" ++ trail s) :=
    fmtAround_rewrap "**" "**" s h
      (by intro c hc; have : c = '*' := by simpa using hc.symm
          subst this; decide)
      (by intro c hc
          have : c = '*' := by
            rw [← List.append_assoc, List.getLast?_append_of_ne_nil _ (by decide)] at hc
            simpa using hc.symm
          subst this; decide)
  rw [h1, Option.some_bind, h2]
  congr 1
  apply String.ext
  simp [String.data_append]

/-! ## Joining and the fill loop -/

theorem Join_cons_empty (a : String) (rest : List String) :
    Join (a :: rest) "" = a ++ Join rest "" := by
  cases rest with
  | nil => simp [Join, String.append_empty]
  | cons b r => simp [Join, String.append_empty]

theorem foldl_append_eq_Join (l : List String) :
    ∀ acc : String, l.foldl (fun r s => r ++ s) acc = acc ++ Join l "" := by
  induction l with
  | nil => intro acc; simp [Join, String.append_empty]
  | cons a rest ih =>
    intro acc
    rw [List.foldl_cons, ih, Join_cons_empty, String.append_assoc]

theorem Join_empty_eq_join (l : List String) : Join l "" = String.join l := by
  unfold String.join
  rw [foldl_append_eq_Join, String.empty_append]

theorem intercalate_go_eq_Join (sep : String) (rest : List String) :
    ∀ acc a : String, String.intercalate.go (acc ++ a) sep rest = acc ++ Join (a :: rest) sep := by
  induction rest with
  | nil => intro acc a; simp [String.intercalate.go, Join]
  | cons b r ih =>
    intro acc a
    have h := ih (acc ++ a ++ sep) b
    simp only [String.intercalate.go, Join]
    rw [h]
    simp only [String.append_assoc]

theorem Join_eq_intercalate (l : List String) (sep : String) :
    Join l sep = String.intercalate sep l := by
  cases l with
  | nil => simp [Join, String.intercalate]
  | cons a rest =>
    have h := intercalate_go_eq_Join sep rest "" a
    simp only [String.empty_append] at h
    simp only [String.intercalate]
    rw [h]

theorem fillLoop_spec {T : Type} (g : Int → T → String) (todo : List T) :
    ∀ (done : List T) (out pad : List String) (fuel : Nat),
      out.length = done.length → pad.length = todo.length → todo.length < fuel →
      fillLoop (done ++ todo) g fuel (done.length : Int) (out ++ pad) =
        some (out ++ (todo.enumFrom done.length).map (fun p => g (p.1 : Int) p.2)) := by
  induction todo with
  | nil =>
    intro done out pad fuel _ hpad hfuel
    obtain ⟨f, rfl⟩ : ∃ f, fuel = f + 1 := ⟨fuel - 1, by simp at hfuel; omega⟩
    have : pad = [] := List.length_eq_zero.mp hpad
    subst this
    simp [fillLoop]
  | cons x t ih =>
    intro done out pad fuel hout hpad hfuel
    obtain ⟨f, rfl⟩ : ∃ f, fuel = f + 1 := ⟨fuel - 1, by simp at hfuel; omega⟩
    cases pad with
    | nil => simp at hpad
    | cons p ps =>
      have hlt : (done.length : Int) < ((done ++ x :: t).length : Int) := by
        simp
      have hassign : assign (out ++ p :: ps) (done.length : Int) (g (done.length : Int) x) =
          some ((out ++ [g (done.length : Int) x]) ++ ps) := by
        have hb : (0 : Int) ≤ (done.length : Int) ∧
            (done.length : Int) < ((out ++ p :: ps).length : Int) := by
          simp [hout]
        rw [assign, if_pos hb, Int.toNat_ofNat, ← hout]
        simp
      have hlist : done ++ x :: t = (done ++ [x]) ++ t := by simp
      simp only [fillLoop, index_append_cons, hlt, if_true, hassign]
      rw [hlist]
      have := ih (done ++ [x]) (out ++ [g (done.length : Int) x]) ps f
        (by simp [hout]) (by simpa using hpad) (by simp at hfuel; omega)
      simp only [List.length_append, List.length_singleton, Nat.cast_add, Nat.cast_one] at this
      rw [this]
      simp [List.enumFrom_cons]

theorem fillLoop_make {T : Type} (g : Int → T → String) (xs : List T) :
    fillLoop xs g (xs.length + 1) 0 (make xs.length) =
      some (xs.enum.map (fun p => g (p.1 : Int) p.2)) := by
  have := fillLoop_spec g xs [] [] (make xs.length) (xs.length + 1) rfl
    (by simp [make]) (by omega)
  simpa [List.enum] using this

theorem Join_concat (a b : String) (l : List String) (sep : String) :
    Join (a :: (l ++ [b])) sep = Join (a :: l) sep ++ sep ++ b := by
  induction l generalizing a with
  | nil => simp [Join]
  | cons c r ih =>
    have h := ih c
    simp only [List.cons_append] at h ⊢
    simp only [Join, h, String.append_assoc]

theorem map_enumFrom_snd {T : Type} (f : T → String) (l : List T) :
    ∀ k : Nat, (l.enumFrom k).map (fun p => f p.2) = l.map f := by
  induction l with
  | nil => intro k; rfl
  | cons a r ih => intro k; simp [List.enumFrom_cons, ih]

theorem fmtD_succ (i : Nat) : fmtD ((i : Int) + 1) = Nat.repr (i + 1) := rfl

theorem UL_eq (items : List String) :
    UL items = some (Join (items.map fun s => "- " ++ s) "\n") := by
  simp only [UL, fillLoop_make, List.enum, map_enumFrom_snd (fun s => "- " ++ s) items 0,
    Option.bind_eq_bind, Option.some_bind, Option.pure_def]

theorem OL_eq (items : List String) :
    OL items = some (Join (items.enum.map fun p => Nat.repr (p.1 + 1) ++ ". " ++ p.2) "\n") := by
  simp only [OL, fillLoop_make, fmtD_succ, Option.bind_eq_bind, Option.some_bind,
    Option.pure_def]

/-- C8: for N from 1 to 6 and any list of fragments, `HN` returns N characters
`#`, one space, the fragments concatenated in order with no separator, and one
newline; with no fragment that is the N characters `#` followed by a space and
a newline. -/
theorem headings_format (nodes : List String) :
    H1 nodes = String.mk (List.replicate 1 '#') ++ " " ++ String.join nodes ++ "\n" ∧
    H2 nodes = String.mk (List.replicate 2 '#') ++ " " ++ String.join nodes ++ "\n" ∧
    H3 nodes = String.mk (List.replicate 3 '#') ++ " " ++ String.join nodes ++ "\n" ∧
    H4 nodes = String.mk (List.replicate 4 '#') ++ " " ++ String.join nodes ++ "\n" ∧
    H5 nodes = String.mk (List.replicate 5 '#') ++ " " ++ String.join nodes ++ "\n" ∧
    H6 nodes = String.mk (List.replicate 6 '#') ++ " " ++ String.join nodes ++ "\n" ∧
    H1 [] = "# \n" ∧ H2 [] = "## \n" ∧ H3 [] = "### \n" ∧ H4 [] = "#### \n" ∧
    H5 [] = "##### \n" ∧ H6 [] = "###### \n" ∧ H1 ["x"] = "# x\n" := by
  refine ⟨?_, ?_, ?_, ?_, ?_, ?_, by decide, by decide, by decide, by decide, by decide,
    by decide, by decide⟩
  · rw [H1, Join_empty_eq_join]; rfl
  · rw [H2, Join_empty_eq_join]; rfl
  · rw [H3, Join_empty_eq_join]; rfl
  · rw [H4, Join_empty_eq_join]; rfl
  · rw [H5, Join_empty_eq_join]; rfl
  · rw [H6, Join_empty_eq_join]; rfl

/-- C9: `OL` returns the items, each prefixed by the decimal digits of its
1-based position and `". "`, joined by single newlines: the empty string for no
item, and for a last item `b` the join of the items before it, a newline when
there is one before it, and the entry of `b`, with nothing after it. -/
theorem OL_format (items : List String) :
    OL items = some (String.intercalate "\n"
      (items.enum.map fun p => Nat.repr (p.1 + 1) ++ ". " ++ p.2)) ∧
    OL [] = some "" ∧
    (∀ (a b : String) (l : List String), ∃ front : String,
      OL (a :: l) = some front ∧
      OL (a :: l ++ [b]) = some (front ++ "\n" ++ Nat.repr (l.length + 2) ++ ". " ++ b)) ∧
    OL ["a", "b"] = some "1. a\n2. b" := by
  refine ⟨?_, by decide, ?_, by decide⟩
  · rw [OL_eq, Join_eq_intercalate]
  · intro a b l
    refine ⟨_, OL_eq (a :: l), ?_⟩
    rw [OL_eq]
    have hpos : 0 + 1 + l.length + 1 = l.length + 2 := by omega
    simp only [List.enum, List.enumFrom_cons, List.enumFrom_append, List.map_cons,
      List.map_append, List.enumFrom_nil, List.map_nil, List.cons_append, Join_concat,
      List.length_cons, hpos, String.append_assoc]

/-- C10: `UL` returns the items, each prefixed by `"- "`, joined by single
newlines: the empty string for no item, and for a last item `b` the join of the
items before it, a newline when there is one before it, and `"- "` with `b`,
with no newline after it. -/
theorem UL_format (items : List String) :
    UL items = some (String.intercalate "\n" (items.map fun s => "- " ++ s)) ∧
    UL [] = some "" ∧
    (∀ (a b : String) (l : List String), ∃ front : String,
      UL (a :: l) = some front ∧
      UL (a :: l ++ [b]) = some (front ++ "\n" ++ "- " ++ b)) ∧
    UL ["a", "b"] = some "- a\n- b" := by
  refine ⟨?_, by decide, ?_, by decide⟩
  · rw [UL_eq, Join_eq_intercalate]
  · intro a b l
    refine ⟨_, UL_eq (a :: l), ?_⟩
    rw [UL_eq]
    simp only [List.map_cons, List.map_append, List.map_nil, List.cons_append, Join_concat,
      String.append_assoc]

/-! ## Tasks, links, code blocks and the control helpers -/

/-- C11: `Task` returns `"- [x] "` when `done` is true and `"- [ ] "` when it is
false, then the fragments concatenated in order, then one newline. -/
theorem Task_format (nodes : List String) :
    Task true nodes = "- [x] " ++ String.join nodes ++ "\n" ∧
    Task false nodes = "- [ ] " ++ String.join nodes ++ "\n" ∧
    Task true ["done"] = "- [x] done\n" ∧ Task false ["todo"] = "- [ ] todo\n" := by
  refine ⟨?_, ?_, by decide, by decide⟩
  · rw [Task, Join_empty_eq_join]
    apply String.ext
    simp [ifElse, String.data_append]
  · rw [Task, Join_empty_eq_join]
    apply String.ext
    simp [ifElse, String.data_append]

/-- C12: `Link target text` is `"[" ++ text ++ "](" ++ target ++ ")"`: the first
argument goes between the parentheses, the second between the brackets, both
verbatim, also when they hold brackets, parentheses or backslashes. -/
theorem Link_format (target text : String) :
    Link target text = "[" ++ text ++ "](" ++ target ++ ")" ∧
    Link "http://a" "b" = "[b](http://a)" ∧
    Link "a)b" "c]d" = "[c]d](a)b)" := by
  refine ⟨rfl, by decide, by decide⟩

/-- C13: `CodeBlock language text` is a newline, three backticks, the language,
a newline, the text verbatim, a newline, three backticks and a newline, also
when the text itself holds three backticks. -/
theorem CodeBlock_format (language text : String) :
    CodeBlock language text =
      "\n\x60\x60\x60" ++ language ++ "\n" ++ text ++ "\n\x60\x60\x60\n" ∧
    CodeBlock "go" "fmt.Println()" = "\n\x60\x60\x60go\nfmt.Println()\n\x60\x60\x60\n" ∧
    CodeBlock "" "a\x60\x60\x60b" = "\n\x60\x60\x60\na\x60\x60\x60b\n\x60\x60\x60\n" := by
  refine ⟨rfl, by decide, by decide⟩

theorem For_eq {T : Type} (xs : List T) (fn : T → String) :
    For xs fn = some (Join (xs.map fn) "") := by
  simp only [For, fillLoop_make, List.enum, map_enumFrom_snd fn xs 0,
    Option.bind_eq_bind, Option.some_bind, Option.pure_def]

/-- C14: for a sequence `xs` of any element type and a function `fn` to strings,
`For xs fn` returns `fn x1 ++ fn x2 ++ ... ++ fn xn` in the order of `xs` with no
separator, and the empty string for the empty sequence. -/
theorem For_format {T : Type} (xs : List T) (fn : T → String) :
    For xs fn = some (String.join (xs.map fn)) ∧
    For ([] : List T) fn = some "" ∧
    (∀ g : Int → String, For [1, 2, 3] g = some (g 1 ++ g 2 ++ g 3)) := by
  refine ⟨?_, ?_, ?_⟩
  · rw [For_eq, Join_empty_eq_join]
  · rw [For_eq]; rfl
  · intro g
    rw [For_eq]
    simp [Join, String.append_empty, String.append_assoc]

/-- C15: `If` returns the fragments concatenated in order when the condition
is true, and the empty string when it is false. -/
theorem If_format (nodes : List String) :
    If true nodes = String.join nodes ∧ If false nodes = "" ∧
    If false ["x"] = "" ∧ If true ["x", "y"] = "xy" := by
  refine ⟨?_, rfl, by decide, by decide⟩
  rw [If, Join_empty_eq_join]
  rfl

/-- C16: `Doc` is the concatenation of the fragments in order with no separator,
and each variadic formatter gives on a fragment list what it gives on the one
fragment `Doc` of that list. -/
theorem variadic_through_Doc (fs : List String) :
    Doc fs = String.join fs ∧ Doc [] = "" ∧
    H1 fs = H1 [Doc fs] ∧ H2 fs = H2 [Doc fs] ∧ H3 fs = H3 [Doc fs] ∧
    H4 fs = H4 [Doc fs] ∧ H5 fs = H5 [Doc fs] ∧ H6 fs = H6 [Doc fs] ∧
    Quote fs = Quote [Doc fs] ∧ Bold fs = Bold [Doc fs] ∧ Italic fs = Italic [Doc fs] ∧
    Strikethrough fs = Strikethrough [Doc fs] ∧
    (∀ c : Bool, If c fs = If c [Doc fs]) ∧ (∀ d : Bool, Task d fs = Task d [Doc fs]) := by
  refine ⟨Join_empty_eq_join fs, rfl, rfl, rfl, rfl, rfl, rfl, rfl, rfl, rfl, rfl, rfl,
    fun _ => rfl, fun _ => rfl⟩

/-! ## The two scans of `fmtAround` on any content -/

theorem dropWhile_head (s : List Char) :
    ∀ c, (s.dropWhile isBlank).head? = some c → isBlank c = false := by
  intro c hc
  have hd := List.head?_dropWhile_not isBlank s
  rw [hc] at hd
  simpa using hd

theorem rdrop_getLast (r : List Char) :
    ∀ c, ((r.reverse.dropWhile isBlank).reverse).getLast? = some c → isBlank c = false := by
  intro c hc
  have hne : List.rdropWhile isBlank r ≠ [] := by
    intro hnil
    have : (r.reverse.dropWhile isBlank).reverse = [] := hnil
    rw [this] at hc; cases hc
  have h1 := List.rdropWhile_last_not isBlank r hne
  have h2 : ((r.reverse.dropWhile isBlank).reverse).getLast? =
      some ((List.rdropWhile isBlank r).getLast hne) :=
    List.getLast?_eq_getLast _ hne
  rw [h2] at hc
  cases hc
  simpa using h1

theorem leadOf_length_le (runes : List Char) : (leadOf runes).length ≤ runes.length := by
  have h := congrArg List.length (List.takeWhile_append_dropWhile isBlank runes)
  rw [List.length_append] at h
  unfold leadOf
  omega

theorem trailOf_length_le (runes : List Char) : (trailOf runes).length ≤ runes.length := by
  have h := congrArg List.length (coreOf_append_trailOf runes)
  rw [List.length_append] at h
  omega

theorem leadLoop_scan (runes : List Rune) :
    leadLoop runes (runes.length + 1) 0 Builder.empty =
      some (((leadOf runes).length : Int), ⟨leadOf runes⟩) := by
  have h := leadLoop_spec (leadOf runes) (runes.dropWhile isBlank) (leadOf_blank runes)
    (dropWhile_head runes) [] Builder.empty (runes.length + 1)
    (by have := leadOf_length_le runes; omega)
  have hl : [] ++ leadOf runes ++ runes.dropWhile isBlank = runes := by
    simp [leadOf]
  rw [hl] at h
  simpa [Builder.empty] using h

theorem endLoop_scan (runes : List Rune) :
    endLoop runes (runes.length + 1) ((runes.length : Int) - 1) =
      some ((runes.length : Int) - ((trailOf runes).length : Int) - 1) := by
  have h := endLoop_spec ((runes.reverse.dropWhile isBlank).reverse) (rdrop_getLast runes)
    (trailOf runes) (trailOf_blank runes) [] (runes.length + 1)
    (by have := trailOf_length_le runes; omega)
  have hl : (runes.reverse.dropWhile isBlank).reverse ++ trailOf runes ++ [] = runes := by
    rw [List.append_nil, coreOf_append_trailOf]
  have hlen := congrArg List.length (coreOf_append_trailOf runes)
  rw [List.length_append] at hlen
  rw [hl] at h
  have e1 : ((((runes.reverse.dropWhile isBlank).reverse).length + (trailOf runes).length : Nat)
      : Int) - 1 = (runes.length : Int) - 1 := by
    rw [hlen]
  have e2 : ((((runes.reverse.dropWhile isBlank).reverse).length : Nat) : Int) - 1
      = (runes.length : Int) - ((trailOf runes).length : Int) - 1 := by
    omega
  rw [e1, e2] at h
  exact h

theorem allBlank_or_exists (s : List Char) :
    (∀ c ∈ s, isBlank c = true) ∨ (∃ c ∈ s, isBlank c = false) := by
  by_cases h : ∀ c ∈ s, isBlank c = true
  · exact Or.inl h
  · right
    push_neg at h
    obtain ⟨c, hc, hb⟩ := h
    exact ⟨c, hc, by simpa using hb⟩

theorem lead_trail_lt (s : List Char) (h : ∃ c ∈ s, isBlank c = false) :
    (leadOf s).length + (trailOf s).length < s.length := by
  have hd := congrArg List.length (decomposition s h)
  have hne := List.length_pos.mpr (coreOf_ne_nil s h)
  simp only [List.length_append] at hd
  omega

theorem leadOf_allBlank (s : List Char) (h : ∀ c ∈ s, isBlank c = true) : leadOf s = s :=
  List.takeWhile_eq_self_iff.mpr h

theorem trailOf_allBlank (s : List Char) (h : ∀ c ∈ s, isBlank c = true) : trailOf s = s := by
  unfold trailOf
  have : s.reverse.takeWhile isBlank = s.reverse :=
    List.takeWhile_eq_self_iff.mpr (fun c hc => h c (List.mem_reverse.mp hc))
  rw [this, List.reverse_reverse]

theorem index_isSome_iff {T : Type} (xs : List T) (i : Int) :
    (index xs i).isSome = true ↔ 0 ≤ i ∧ i < (xs.length : Int) := by
  unfold index
  by_cases h : 0 ≤ i
  · rw [if_pos h, List.get?_eq_getElem?]
    cases hg : xs[i.toNat]? with
    | none =>
      rw [List.getElem?_eq_none_iff] at hg
      simp only [Option.isSome_none, Bool.false_eq_true, false_iff, not_and, not_lt]
      intro _; omega
    | some v =>
      have := (List.getElem?_eq_some_iff.mp hg).1
      simp only [Option.isSome_some, true_iff]
      omega
  · rw [if_neg h]
    simp only [Option.isSome_none, Bool.false_eq_true, false_iff, not_and]
    intro h0; exact absurd h0 h

theorem slice_isSome_iff (runes : List Rune) (lo hi : Int) :
    (slice runes lo hi).isSome = true ↔ 0 ≤ lo ∧ lo ≤ hi ∧ hi ≤ (runes.length : Int) := by
  unfold slice
  by_cases h : 0 ≤ lo ∧ lo ≤ hi ∧ hi ≤ (runes.length : Int)
  · rw [if_pos h]; simp [h]
  · rw [if_neg h]; simp [h]

theorem fmtAround_isSome (around content : String) :
    ∃ out, fmtAround around content = some out := by
  rcases allBlank_or_exists content.data with h | h
  · exact ⟨_, fmtAround_allBlank around content.data h⟩
  · exact ⟨_, fmtAround_wrapped around content h⟩

/-- C17: no input makes `fmtAround` panic.  An index or slice expression of the
model yields a value exactly when it is in bounds, both scans and the whole
function yield a value on every marker and content, the scans end with
`0 ≤ start ≤ len` and `-1 ≤ end < len`, and when `start ≤ end` the slice
`runes[start:end+1]` has `0 ≤ start ≤ end < len`. -/
theorem fmtAround_never_panics (around content : String) :
    (∀ i : Int, (index content.data i).isSome = true ↔
      0 ≤ i ∧ i < (content.data.length : Int)) ∧
    (∀ lo hi : Int, (slice content.data lo hi).isSome = true ↔
      0 ≤ lo ∧ lo ≤ hi ∧ hi ≤ (content.data.length : Int)) ∧
    ∃ (start : Int) (b : Builder) (e : Int) (out : String),
      leadLoop content.data (content.data.length + 1) 0 Builder.empty = some (start, b) ∧
      endLoop content.data (content.data.length + 1) ((content.data.length : Int) - 1) =
        some e ∧
      0 ≤ start ∧ start ≤ (content.data.length : Int) ∧
      -1 ≤ e ∧ e < (content.data.length : Int) ∧ 0 ≤ e + 1 ∧
      (start ≤ e → start < (content.data.length : Int) ∧
        (slice content.data start (e + 1)).isSome = true) ∧
      fmtAround around content = some out := by
  refine ⟨index_isSome_iff _, slice_isSome_iff _, ?_⟩
  obtain ⟨out, hout⟩ := fmtAround_isSome around content
  have hl := leadOf_length_le content.data
  have ht := trailOf_length_le content.data
  refine ⟨_, _, _, out, leadLoop_scan content.data, endLoop_scan content.data,
    by omega, by omega, by omega, by omega, by omega, ?_, hout⟩
  intro hle
  refine ⟨by omega, ?_⟩
  rw [slice_isSome_iff]
  omega

/-- C20: the two guards of `fmtAround` agree.  After the two scans
`start < len(runes)` holds iff `start ≤ end` holds, so either no marker is
written (and then the content has only spaces and newlines) or the opening and
the closing marker are both written, once each, around the core. -/
theorem fmtAround_guards_agree (around content : String) :
    ∃ (start : Int) (b : Builder) (e : Int),
      leadLoop content.data (content.data.length + 1) 0 Builder.empty = some (start, b) ∧
      endLoop content.data (content.data.length + 1) ((content.data.length : Int) - 1) =
        some e ∧
      (start < (content.data.length : Int) ↔ start ≤ e) ∧
      ((¬ start < (content.data.length : Int) ∧ ¬ start ≤ e ∧
          (∀ c ∈ content.data, isBlank c = true) ∧
          fmtAround around content = some (content ++ content)) ∨
       (start < (content.data.length : Int) ∧ start ≤ e ∧
          fmtAround around content =
            some (lead content ++ around ++ core content ++ around ++ trail content))) := by
  refine ⟨_, _, _, leadLoop_scan content.data, endLoop_scan content.data, ?_, ?_⟩
  · rcases allBlank_or_exists content.data with h | h
    · rw [leadOf_allBlank _ h, trailOf_allBlank _ h]
      constructor <;> intro h1 <;> omega
    · have := lead_trail_lt content.data h
      constructor <;> intro _ <;> omega
  · rcases allBlank_or_exists content.data with h | h
    · left
      rw [leadOf_allBlank _ h, trailOf_allBlank _ h]
      refine ⟨by omega, by omega, h, ?_⟩
      exact fmtAround_allBlank around content.data h
    · right
      have := lead_trail_lt content.data h
      exact ⟨by omega, by omega, fmtAround_wrapped around content h⟩

/-! ## Escaping can be undone -/

theorem unescapeRunes_cons_of_ne (c : Char) (hc : c ≠ '\\') (rest : List Char) :
    unescapeRunes (c :: rest) = c :: unescapeRunes rest := by
  cases rest with
  | nil => simp [unescapeRunes, hc]
  | cons d r => simp [unescapeRunes, hc]

theorem unescapeRunes_backslash (d : Char) (rest : List Char) :
    unescapeRunes ('\\' :: d :: rest) = d :: unescapeRunes rest := by
  simp [unescapeRunes]

theorem backslash_mem_punctuationChars : '\\' ∈ punctuationChars := by decide

theorem unescapeRunes_flatMap (l : List Char) :
    unescapeRunes (l.flatMap escapeRune) = l := by
  induction l with
  | nil => rfl
  | cons c rest ih =>
    rw [List.flatMap_cons]
    by_cases h : c ∈ punctuationChars
    · have e : escapeRune c = ['\\', c] := by simp [escapeRune, h]
      rw [e]
      show unescapeRunes ('\\' :: c :: rest.flatMap escapeRune) = c :: rest
      rw [unescapeRunes_backslash, ih]
    · have e : escapeRune c = [c] := by simp [escapeRune, h]
      have hc : c ≠ '\\' := by
        intro hc
        rw [hc] at h
        exact h backslash_mem_punctuationChars
      rw [e]
      show unescapeRunes (c :: rest.flatMap escapeRune) = c :: rest
      rw [unescapeRunes_cons_of_ne c hc, ih]

theorem unescape_Escape (s : String) : unescape (Escape s) = s := by
  apply String.ext
  show unescapeRunes (Escape s).data = s.data
  rw [Escape_data, unescapeRunes_flatMap]

/-! ## Escaping and the whitespace boundary -/

theorem escapeRune_blank (c : Char) (h : isBlank c = true) : escapeRune c = [c] := by
  rcases (isBlank_iff c).mp h with rfl | rfl <;> decide

theorem flatMap_escapeRune_blank (l : List Char) (h : ∀ c ∈ l, isBlank c = true) :
    l.flatMap escapeRune = l := by
  induction l with
  | nil => rfl
  | cons c rest ih =>
    rw [List.flatMap_cons, escapeRune_blank c (h c (List.mem_cons_self _ _)),
      ih (fun x hx => h x (List.mem_cons_of_mem _ hx))]
    rfl

theorem escapeRune_getLast (c : Char) : (escapeRune c).getLast? = some c := by
  by_cases h : c ∈ punctuationChars <;> simp [escapeRune, h]

theorem escapeRune_ne_nil (c : Char) : escapeRune c ≠ [] := by
  by_cases h : c ∈ punctuationChars <;> simp [escapeRune, h]

theorem flatMap_escapeRune_getLast (l : List Char) :
    (l.flatMap escapeRune).getLast? = l.getLast? := by
  rcases List.eq_nil_or_concat l with h | ⟨init, z, h⟩
  · subst h; rfl
  · rw [List.concat_eq_append] at h
    subst h
    rw [List.flatMap_append, List.flatMap_singleton,
      List.getLast?_append_of_ne_nil _ (escapeRune_ne_nil z), escapeRune_getLast]
    simp

theorem flatMap_escapeRune_head (l : List Char)
    (hl : ∀ a, l.head? = some a → isBlank a = false) :
    ∀ c, (l.flatMap escapeRune).head? = some c → isBlank c = false := by
  intro c hc
  cases l with
  | nil => cases hc
  | cons a rest =>
    have ha : isBlank a = false := hl a rfl
    rw [List.flatMap_cons] at hc
    by_cases h : a ∈ punctuationChars
    · have e : escapeRune a = ['\\', a] := by simp [escapeRune, h]
      rw [e] at hc
      have : c = '\\' := by simpa using hc.symm
      subst this; decide
    · have e : escapeRune a = [a] := by simp [escapeRune, h]
      rw [e] at hc
      have : c = a := by simpa using hc.symm
      subst this; exact ha

theorem flatMap_escapeRune_ne_nil (l : List Char) (h : l ≠ []) :
    l.flatMap escapeRune ≠ [] := by
  cases l with
  | nil => exact absurd rfl h
  | cons a rest =>
    rw [List.flatMap_cons]
    intro hnil
    exact escapeRune_ne_nil a (List.append_eq_nil.mp hnil).1

theorem fmtAround_Escape (around s : String) (h : ∃ c ∈ s.data, isBlank c = false) :
    fmtAround around (Escape s) =
      some (lead s ++ around ++ Escape (core s) ++ around ++ trail s) := by
  have hd := fmtAround_decomposed around (leadOf s.data)
    ((coreOf s.data).flatMap escapeRune) (trailOf s.data)
    (leadOf_blank _) (trailOf_blank _)
    (flatMap_escapeRune_ne_nil _ (coreOf_ne_nil _ h))
    (flatMap_escapeRune_head _ (coreOf_head _))
    (by intro c hc
        rw [flatMap_escapeRune_getLast] at hc
        exact coreOf_getLast _ c hc)
  have e1 : Escape s = String.mk
      (leadOf s.data ++ (coreOf s.data).flatMap escapeRune ++ trailOf s.data) := by
    apply String.ext
    rw [Escape_data]
    conv_lhs => rw [← decomposition s.data h]
    rw [List.flatMap_append, List.flatMap_append,
      flatMap_escapeRune_blank _ (leadOf_blank _), flatMap_escapeRune_blank _ (trailOf_blank _)]
  rw [e1, hd]
  congr 1
  apply String.ext
  simp only [String.data_append, lead, trail, core, Escape_data]

theorem Escape_allBlank (s : String) (h : ∀ c ∈ s.data, isBlank c = true) : Escape s = s := by
  apply String.ext
  rw [Escape_data, flatMap_escapeRune_blank _ h]

/-- C19: escaping does not move the whitespace boundary.  On a content `s` with
a code point other than space and newline, wrapping `Escape s` gives
`lead s ++ m ++ Escape (core s) ++ m ++ trail s`.  On a content of spaces and
newlines only, wrapping `Escape s` gives `s` twice, which is `s` only when `s`
is empty. -/
theorem wrap_Escape_boundary (around s : String) :
    ((∃ c ∈ s.data, isBlank c = false) →
      fmtAround around (Escape s) =
        some (lead s ++ around ++ Escape (core s) ++ around ++ trail s)) ∧
    ((∀ c ∈ s.data, isBlank c = true) →
      Escape s = s ∧ fmtAround around (Escape s) = some (s ++ s)) := by
  refine ⟨fmtAround_Escape around s, ?_⟩
  intro h
  refine ⟨Escape_allBlank s h, ?_⟩
  rw [Escape_allBlank s h]
  exact fmtAround_allBlank around s.data h

theorem wrap_Escape_boundary_witness :
    fmtAround "**" (Escape " a*b\n") = some " **a\\*b**\n" ∧
    fmtAround "**" (Escape "   ") = some "      " ∧
    fmtAround "\x60" (Escape "\n") = some "\n\n" :=
  ⟨(wrap_Escape_boundary "**" " a*b\n").1 ⟨'a', by decide, by decide⟩,
   ((wrap_Escape_boundary "**" "   ").2 (by decide)).2,
   ((wrap_Escape_boundary "\x60" "\n").2 (by decide)).2⟩

/-! ## UTF-8: decoding undoes encoding -/

theorem byte_val (n : Nat) (h : n < 256) : (byte n).val = n := Nat.mod_eq_of_lt h

theorem decodeRune_encodeRune (c : Rune) (rest : List Byte) :
    decodeRune (encodeRune c ++ rest) = (c, (encodeRune c).length) := by
  have hv : c.toNat < 0xD800 ∨ (0xDFFF < c.toNat ∧ c.toNat < 0x110000) := c.valid
  have hc : Char.ofNat c.toNat = c := Char.ofNat_toNat c
  generalize hn : c.toNat = n at hv hc
  unfold encodeRune
  rw [hn]
  by_cases h1 : n ≤ 0x7F
  · have e0 : (byte n).val = n := byte_val _ (by omega)
    simp only [if_pos h1, List.singleton_append, List.cons_append, List.nil_append, decodeRune,
      e0, List.length_singleton]
    rw [if_pos (by omega), hc]
  · by_cases h2 : n ≤ 0x7FF
    · have e0 : (byte (0xC0 + n / 64)).val = 0xC0 + n / 64 := byte_val _ (by omega)
      have e1 : (byte (0x80 + n % 64)).val = 0x80 + n % 64 := byte_val _ (by omega)
      have hacc : ¬ (0x80 + n % 64 < acceptLo (0xC0 + n / 64) ∨
          acceptHi (0xC0 + n / 64) < 0x80 + n % 64) := by
        unfold acceptLo acceptHi; split_ifs <;> omega
      have hval : (0xC0 + n / 64) % 32 * 64 + (0x80 + n % 64) % 64 = n := by omega
      simp only [if_neg h1, if_pos h2, List.cons_append, List.nil_append, decodeRune, e0, e1]
      rw [if_neg (by omega), if_neg (by omega), if_neg hacc, if_pos (by omega), hval, hc]
      rfl
    · by_cases h3 : n ≤ 0xFFFF
      · have e0 : (byte (0xE0 + n / 4096)).val = 0xE0 + n / 4096 := byte_val _ (by omega)
        have e1 : (byte (0x80 + n / 64 % 64)).val = 0x80 + n / 64 % 64 := byte_val _ (by omega)
        have e2 : (byte (0x80 + n % 64)).val = 0x80 + n % 64 := byte_val _ (by omega)
        have hacc : ¬ (0x80 + n / 64 % 64 < acceptLo (0xE0 + n / 4096) ∨
            acceptHi (0xE0 + n / 4096) < 0x80 + n / 64 % 64) := by
          unfold acceptLo acceptHi; split_ifs <;> omega
        have hval : (0xE0 + n / 4096) % 16 * 4096 + (0x80 + n / 64 % 64) % 64 * 64
            + (0x80 + n % 64) % 64 = n := by omega
        simp only [if_neg h1, if_neg h2, if_pos h3, List.cons_append, List.nil_append,
          decodeRune, e0, e1, e2]
        rw [if_neg (by omega), if_neg (by omega), if_neg hacc, if_neg (by omega),
          if_neg (by omega), if_pos (by omega), hval, hc]
        rfl
      · have e0 : (byte (0xF0 + n / 262144)).val = 0xF0 + n / 262144 := byte_val _ (by omega)
        have e1 : (byte (0x80 + n / 4096 % 64)).val = 0x80 + n / 4096 % 64 :=
          byte_val _ (by omega)
        have e2 : (byte (0x80 + n / 64 % 64)).val = 0x80 + n / 64 % 64 := byte_val _ (by omega)
        have e3 : (byte (0x80 + n % 64)).val = 0x80 + n % 64 := byte_val _ (by omega)
        have hacc : ¬ (0x80 + n / 4096 % 64 < acceptLo (0xF0 + n / 262144) ∨
            acceptHi (0xF0 + n / 262144) < 0x80 + n / 4096 % 64) := by
          unfold acceptLo acceptHi; split_ifs <;> omega
        have hval : (0xF0 + n / 262144) % 8 * 262144 + (0x80 + n / 4096 % 64) % 64 * 4096
            + (0x80 + n / 64 % 64) % 64 * 64 + (0x80 + n % 64) % 64 = n := by omega
        simp only [if_neg h1, if_neg h2, if_neg h3, List.cons_append, List.nil_append,
          decodeRune, e0, e1, e2, e3]
        rw [if_neg (by omega), if_neg (by omega), if_neg hacc, if_neg (by omega),
          if_neg (by omega), if_neg (by omega), if_neg (by omega), hval, hc]
        rfl

theorem encodeRune_length_pos (c : Rune) : 0 < (encodeRune c).length := by
  unfold encodeRune; split_ifs <;> simp

theorem decodeLoop_encodeRune (c : Rune) (rest : List Byte) (fuel : Nat) :
    decodeLoop (fuel + 1) (encodeRune c ++ rest) = c :: decodeLoop fuel rest := by
  have hpos := encodeRune_length_pos c
  have hd := decodeRune_encodeRune c rest
  cases he : encodeRune c ++ rest with
  | nil =>
    have := congrArg List.length he
    rw [List.length_append, List.length_nil] at this
    omega
  | cons a as =>
    rw [← he]
    simp only [decodeLoop]
    rw [he]
    simp only []
    rw [← he, hd]
    simp

theorem decodeLoop_encodeRunes (rs : List Rune) :
    ∀ fuel, rs.length ≤ fuel → decodeLoop fuel (encodeRunes rs) = rs := by
  induction rs with
  | nil => intro fuel _; cases fuel <;> simp [decodeLoop, encodeRunes]
  | cons c rest ih =>
    intro fuel hf
    obtain ⟨f, rfl⟩ : ∃ f, fuel = f + 1 := ⟨fuel - 1, by simp at hf; omega⟩
    have := ih f (by simp at hf; omega)
    unfold encodeRunes at this ⊢
    rw [List.flatMap_cons, decodeLoop_encodeRune, this]

theorem length_le_encodeRunes (rs : List Rune) : rs.length ≤ (encodeRunes rs).length := by
  induction rs with
  | nil => simp [encodeRunes]
  | cons c rest ih =>
    have := encodeRune_length_pos c
    unfold encodeRunes at ih ⊢
    rw [List.flatMap_cons, List.length_append, List.length_cons]
    omega

theorem decodeRunes_encodeRunes (rs : List Rune) : decodeRunes (encodeRunes rs) = rs :=
  decodeLoop_encodeRunes rs _ (length_le_encodeRunes rs)

theorem decodeRune_width_pos (a : Byte) (rest : List Byte) :
    1 ≤ (decodeRune (a :: rest)).2 := by
  simp only [decodeRune]
  repeat' split
  all_goals first
    | exact Nat.le_refl 1
    | exact Nat.le_succ 1
    | exact Nat.le_add_left 1 2
    | exact Nat.le_add_left 1 3

theorem decodeLoop_fuel_irrelevant :
    ∀ (fuel1 fuel2 : Nat) (s : List Byte), s.length ≤ fuel1 → s.length ≤ fuel2 →
      decodeLoop fuel1 s = decodeLoop fuel2 s := by
  intro fuel1
  induction fuel1 with
  | zero =>
    intro fuel2 s h1 _
    have hs : s = [] := List.length_eq_zero.mp (Nat.le_zero.mp h1)
    subst hs
    cases fuel2 <;> rfl
  | succ f ih =>
    intro fuel2 s h1 h2
    cases s with
    | nil => cases fuel2 <;> rfl
    | cons a rest =>
      obtain ⟨f2, rfl⟩ : ∃ f2, fuel2 = f2 + 1 := ⟨fuel2 - 1, by simp at h2; omega⟩
      have hw := decodeRune_width_pos a rest
      have hlen : ((a :: rest).drop (decodeRune (a :: rest)).2).length ≤ rest.length := by
        rw [List.length_drop, List.length_cons]; omega
      simp only [decodeLoop]
      rw [ih f2 _ (by simp at h1; omega) (by simp at h2; omega)]

theorem decodeRunes_fuel (s : GoString) (fuel : Nat) (h : s.length ≤ fuel) :
    decodeLoop fuel s = decodeRunes s :=
  decodeLoop_fuel_irrelevant fuel s.length s h (Nat.le_refl _)

theorem validUTF8_iff (s : GoString) : ValidUTF8 s ↔ ∃ rs : List Rune, s = encodeRunes rs := by
  constructor
  · intro h; exact ⟨decodeRunes s, h.symm⟩
  · rintro ⟨rs, rfl⟩
    show encodeRunes (decodeRunes (encodeRunes rs)) = encodeRunes rs
    rw [decodeRunes_encodeRunes]

theorem encodeRunes_append (xs ys : List Rune) :
    encodeRunes (xs ++ ys) = encodeRunes xs ++ encodeRunes ys := by
  simp [encodeRunes, List.flatMap_append]

theorem encodeRunes_injective (xs ys : List Rune) (h : encodeRunes xs = encodeRunes ys) :
    xs = ys := by
  rw [← decodeRunes_encodeRunes xs, h, decodeRunes_encodeRunes]

theorem utf8_append (a b : String) : utf8 (a ++ b) = utf8 a ++ utf8 b := by
  simp [utf8, String.data_append, encodeRunes_append]

/-! ## The byte-level program follows the code-point one -/

theorem escapeStepBytes_buf (b : ByteBuilder) (c : Rune) :
    (escapeStepBytes b c).buf = b.buf ++ encodeRunes (escapeRune c) := by
  unfold escapeStepBytes escapeRune
  rw [mapIndex_punctuationMap]
  by_cases h : c ∈ punctuationChars <;>
    simp [h, ByteBuilder.WriteRune, encodeRunes, List.flatMap_cons]

theorem foldl_escapeStepBytes_buf (l : List Rune) (b : ByteBuilder) :
    (l.foldl escapeStepBytes b).buf = b.buf ++ encodeRunes (l.flatMap escapeRune) := by
  induction l generalizing b with
  | nil => simp [encodeRunes]
  | cons c rest ih =>
    rw [List.foldl_cons, ih, escapeStepBytes_buf, List.flatMap_cons, encodeRunes_append,
      List.append_assoc]

theorem EscapeBytes_eq (input : GoString) :
    EscapeBytes input = encodeRunes ((decodeRunes input).flatMap escapeRune) := by
  unfold EscapeBytes ByteBuilder.Str
  rw [foldl_escapeStepBytes_buf]
  simp [ByteBuilder.empty]

theorem leadLoopBytes_eq (runes : List Rune) :
    ∀ (fuel : Nat) (start : Int) (b : Builder),
      leadLoopBytes runes fuel start ⟨encodeRunes b.buf⟩ =
        (leadLoop runes fuel start b).map
          (fun p => (p.1, (⟨encodeRunes p.2.buf⟩ : ByteBuilder))) := by
  intro fuel
  induction fuel with
  | zero => intro start b; rfl
  | succ f ih =>
    intro start b
    have hw : ∀ w : Rune, (⟨encodeRunes b.buf⟩ : ByteBuilder).WriteRune w =
        ⟨encodeRunes (b.WriteRune w).buf⟩ := by
      intro w
      simp [ByteBuilder.WriteRune, Builder.WriteRune, encodeRunes, List.flatMap_append]
    simp only [leadLoopBytes, leadLoop]
    by_cases hlt : start < (runes.length : Int)
    · simp only [if_pos hlt]
      cases hi : index runes start with
      | none => rfl
      | some r =>
        simp only []
        by_cases hr : (r == ' ' || r == '\n') = true
        · simp only [if_pos hr, hw, ih]
        · simp only [if_neg hr, Option.map_some']
    · simp only [if_neg hlt, Option.map_some']

theorem tailLoopBytes_eq (runes : List Rune) :
    ∀ (fuel : Nat) (i : Int) (b : Builder),
      tailLoopBytes runes fuel i ⟨encodeRunes b.buf⟩ =
        (tailLoop runes fuel i b).map (fun p => (⟨encodeRunes p.buf⟩ : ByteBuilder)) := by
  intro fuel
  induction fuel with
  | zero => intro i b; rfl
  | succ f ih =>
    intro i b
    have hw : ∀ w : Rune, (⟨encodeRunes b.buf⟩ : ByteBuilder).WriteRune w =
        ⟨encodeRunes (b.WriteRune w).buf⟩ := by
      intro w
      simp [ByteBuilder.WriteRune, Builder.WriteRune, encodeRunes, List.flatMap_append]
    simp only [tailLoopBytes, tailLoop]
    by_cases hlt : i < (runes.length : Int)
    · simp only [if_pos hlt]
      cases hi : index runes i with
      | none => rfl
      | some w => simp only [hw, ih]
    · simp only [if_neg hlt, Option.map_some']

theorem fmtAroundBytes_eq (around : String) (content : GoString) :
    fmtAroundBytes (utf8 around) content =
      (fmtAround around (String.mk (decodeRunes content))).map utf8 := by
  have h0 : ByteBuilder.empty = ⟨encodeRunes Builder.empty.buf⟩ := rfl
  simp only [fmtAroundBytes, fmtAround, h0, leadLoopBytes_eq, Option.bind_eq_bind,
    Option.pure_def]
  cases h1 : leadLoop (decodeRunes content) ((decodeRunes content).length + 1) 0 Builder.empty with
  | none => rfl
  | some p =>
    obtain ⟨start, b⟩ := p
    simp only [Option.map_some', Option.some_bind]
    cases h2 : endLoop (decodeRunes content) ((decodeRunes content).length + 1)
        (((decodeRunes content).length : Int) - 1) with
    | none => rfl
    | some e =>
      simp only [Option.some_bind]
      have hws : ∀ (x : Builder) (t : String),
          (⟨encodeRunes x.buf⟩ : ByteBuilder).WriteString (utf8 t) =
            ⟨encodeRunes (x.WriteString t).buf⟩ := by
        intro x t
        simp [ByteBuilder.WriteString, Builder.WriteString, utf8, encodeRunes_append]
      have hwc : ∀ (x : Builder) (c : List Rune),
          (⟨encodeRunes x.buf⟩ : ByteBuilder).WriteString (encodeRunes c) =
            ⟨encodeRunes (x.WriteString (String.mk c)).buf⟩ := by
        intro x c
        simp [ByteBuilder.WriteString, Builder.WriteString, encodeRunes_append]
      have hif : (if start < ((decodeRunes content).length : Int)
            then (⟨encodeRunes b.buf⟩ : ByteBuilder).WriteString (utf8 around)
            else ⟨encodeRunes b.buf⟩) =
          ⟨encodeRunes (if start < ((decodeRunes content).length : Int)
            then b.WriteString around else b).buf⟩ := by
        by_cases hlt : start < ((decodeRunes content).length : Int)
        · simp only [if_pos hlt, hws]
        · simp only [if_neg hlt]
      rw [hif]
      generalize (if start < ((decodeRunes content).length : Int)
        then b.WriteString around else b) = b1
      by_cases hle : start ≤ e
      · simp only [if_pos hle]
        cases h3 : slice (decodeRunes content) start (e + 1) with
        | none => rfl
        | some c =>
          simp only [Option.some_bind, hwc, hws, tailLoopBytes_eq]
          cases h4 : tailLoop (decodeRunes content) ((decodeRunes content).length + 1) (e + 1)
              ((b1.WriteString (String.mk c)).WriteString around) with
          | none => rfl
          | some b2 => rfl
      · simp only [if_neg hle, Option.some_bind, tailLoopBytes_eq]
        cases h4 : tailLoop (decodeRunes content) ((decodeRunes content).length + 1) (e + 1) b1 with
        | none => rfl
        | some b2 => rfl

/-! ## Leading run, core and trailing run of valid UTF-8 content -/

theorem encodeRune_blank (c : Rune) (h : isBlank c = true) :
    ∃ b, encodeRune c = [b] ∧ isBlankByte b = true := by
  rcases (isBlank_iff c).mp h with rfl | rfl
  · exact ⟨0x20, by decide, by decide⟩
  · exact ⟨0x0A, by decide, by decide⟩

theorem toNat_of_not_blank (c : Rune) (h : isBlank c = false) :
    c.toNat ≠ 0x20 ∧ c.toNat ≠ 0x0A := by
  have hc : Char.ofNat c.toNat = c := Char.ofNat_toNat c
  constructor
  · intro h1
    rw [h1] at hc
    rw [← hc] at h
    revert h; decide
  · intro h1
    rw [h1] at hc
    rw [← hc] at h
    revert h; decide

theorem isBlankByte_byte (n : Nat) (h : n < 256) (h1 : n ≠ 0x20) (h2 : n ≠ 0x0A) :
    isBlankByte (byte n) = false := by
  unfold isBlankByte
  rw [byte_val n h]
  simp [h1, h2]

theorem encodeRune_head_not_blank (c : Rune) (h : isBlank c = false) :
    ∃ b more, encodeRune c = b :: more ∧ isBlankByte b = false := by
  obtain ⟨h1, h2⟩ := toNat_of_not_blank c h
  have hv : c.toNat < 0xD800 ∨ (0xDFFF < c.toNat ∧ c.toNat < 0x110000) := c.valid
  unfold encodeRune
  split_ifs with a1 a2 a3
  · exact ⟨_, _, rfl, isBlankByte_byte _ (by omega) h1 h2⟩
  · exact ⟨_, _, rfl, isBlankByte_byte _ (by omega) (by omega) (by omega)⟩
  · exact ⟨_, _, rfl, isBlankByte_byte _ (by omega) (by omega) (by omega)⟩
  · exact ⟨_, _, rfl, isBlankByte_byte _ (by omega) (by omega) (by omega)⟩

theorem encodeRune_last_not_blank (c : Rune) (h : isBlank c = false) :
    ∃ b more, (encodeRune c).reverse = b :: more ∧ isBlankByte b = false := by
  obtain ⟨h1, h2⟩ := toNat_of_not_blank c h
  unfold encodeRune
  split_ifs with a1 a2 a3
  · exact ⟨_, _, rfl, isBlankByte_byte _ (by omega) h1 h2⟩
  · exact ⟨_, _, rfl, isBlankByte_byte _ (by omega) (by omega) (by omega)⟩
  · exact ⟨_, _, rfl, isBlankByte_byte _ (by omega) (by omega) (by omega)⟩
  · exact ⟨_, _, rfl, isBlankByte_byte _ (by omega) (by omega) (by omega)⟩

theorem takeWhile_dropWhile_flatMap (f : Rune → List Byte)
    (hb : ∀ c, isBlank c = true → ∃ b, f c = [b] ∧ isBlankByte b = true)
    (hn : ∀ c, isBlank c = false → ∃ b more, f c = b :: more ∧ isBlankByte b = false)
    (rs : List Rune) :
    (rs.flatMap f).takeWhile isBlankByte = (rs.takeWhile isBlank).flatMap f ∧
    (rs.flatMap f).dropWhile isBlankByte = (rs.dropWhile isBlank).flatMap f := by
  induction rs with
  | nil => exact ⟨rfl, rfl⟩
  | cons c rest ih =>
    cases hc : isBlank c with
    | true =>
      obtain ⟨b, hf, hbb⟩ := hb c hc
      simp only [List.flatMap_cons, hf, List.singleton_append, List.takeWhile_cons,
        List.dropWhile_cons, hbb, hc, if_true, ih.1, ih.2]
      exact ⟨trivial, trivial⟩
    | false =>
      obtain ⟨b, more, hf, hbb⟩ := hn c hc
      simp only [List.flatMap_cons, hf, List.cons_append, List.takeWhile_cons,
        List.dropWhile_cons, hbb, hc, Bool.false_eq_true, if_false, List.flatMap_nil]
      exact ⟨trivial, trivial⟩

theorem reverse_flatMap (f : Rune → List Byte) (rs : List Rune) :
    (rs.flatMap f).reverse = rs.reverse.flatMap (fun c => (f c).reverse) := by
  induction rs with
  | nil => rfl
  | cons c rest ih =>
    rw [List.flatMap_cons, List.reverse_append, ih, List.reverse_cons, List.flatMap_append]
    simp

theorem reverse_flatMap_reverse (f : Rune → List Byte) (rs : List Rune) :
    (rs.flatMap (fun c => (f c).reverse)).reverse = rs.reverse.flatMap f := by
  rw [reverse_flatMap]
  simp

theorem revEncode_blank (c : Rune) (h : isBlank c = true) :
    ∃ b, (encodeRune c).reverse = [b] ∧ isBlankByte b = true := by
  obtain ⟨b, hf, hbb⟩ := encodeRune_blank c h
  exact ⟨b, by rw [hf]; rfl, hbb⟩

theorem leadBytes_encodeRunes (rs : List Rune) :
    leadBytes (encodeRunes rs) = encodeRunes (leadOf rs) :=
  (takeWhile_dropWhile_flatMap encodeRune encodeRune_blank encodeRune_head_not_blank rs).1

theorem dropWhile_encodeRunes (rs : List Rune) :
    (encodeRunes rs).dropWhile isBlankByte = encodeRunes (rs.dropWhile isBlank) :=
  (takeWhile_dropWhile_flatMap encodeRune encodeRune_blank encodeRune_head_not_blank rs).2

theorem trailBytes_encodeRunes (rs : List Rune) :
    trailBytes (encodeRunes rs) = encodeRunes (trailOf rs) := by
  unfold trailBytes trailOf encodeRunes
  rw [reverse_flatMap,
    (takeWhile_dropWhile_flatMap _ revEncode_blank encodeRune_last_not_blank rs.reverse).1,
    reverse_flatMap_reverse]

theorem coreBytes_encodeRunes (rs : List Rune) :
    coreBytes (encodeRunes rs) = encodeRunes (coreOf rs) := by
  unfold coreBytes coreOf
  rw [dropWhile_encodeRunes]
  unfold encodeRunes
  rw [reverse_flatMap,
    (takeWhile_dropWhile_flatMap _ revEncode_blank encodeRune_last_not_blank _).2,
    reverse_flatMap_reverse]

theorem blank_bytes_of_blank_runes (rs : List Rune) (h : ∀ c ∈ rs, isBlank c = true) :
    ∀ b ∈ encodeRunes rs, isBlankByte b = true := by
  intro b hb
  unfold encodeRunes at hb
  rw [List.mem_flatMap] at hb
  obtain ⟨c, hc, hbc⟩ := hb
  obtain ⟨b0, hf, hbb⟩ := encodeRune_blank c (h c hc)
  rw [hf] at hbc
  rw [List.mem_singleton.mp hbc]
  exact hbb

theorem exists_rune_of_exists_byte (rs : List Rune)
    (h : ∃ b ∈ encodeRunes rs, isBlankByte b = false) : ∃ c ∈ rs, isBlank c = false := by
  rcases allBlank_or_exists rs with hall | hex
  · obtain ⟨b, hb, hbb⟩ := h
    have := blank_bytes_of_blank_runes rs hall b hb
    rw [hbb] at this; cases this
  · exact hex

/-! ## The wrappers and `Escape` on Go byte strings -/

theorem bytes_decomposition (rs : List Rune) (h : ∃ c ∈ rs, isBlank c = false) :
    encodeRunes rs = leadBytes (encodeRunes rs) ++ coreBytes (encodeRunes rs) ++
      trailBytes (encodeRunes rs) := by
  rw [leadBytes_encodeRunes, coreBytes_encodeRunes, trailBytes_encodeRunes,
    ← encodeRunes_append, ← encodeRunes_append, decomposition rs h]

theorem utf8_wrapped (around : String) (rs : List Rune) :
    utf8 (wrapped around (String.mk rs)) =
      leadBytes (encodeRunes rs) ++ utf8 around ++ coreBytes (encodeRunes rs) ++ utf8 around ++
        trailBytes (encodeRunes rs) := by
  rw [leadBytes_encodeRunes, coreBytes_encodeRunes, trailBytes_encodeRunes]
  simp only [wrapped, utf8_append]
  rfl

theorem fmtAroundBytes_wrapped (around : String) (s : GoString) (hv : ValidUTF8 s)
    (h : ∃ b ∈ s, isBlankByte b = false) :
    fmtAroundBytes (utf8 around) s =
      some (leadBytes s ++ utf8 around ++ coreBytes s ++ utf8 around ++ trailBytes s) := by
  rw [fmtAroundBytes_eq]
  unfold ValidUTF8 at hv
  generalize decodeRunes s = rs at hv
  subst hv
  have hr := exists_rune_of_exists_byte rs h
  rw [fmtAround_wrapped around (String.mk rs) hr, Option.map_some', utf8_wrapped]

/-- C4, as amended: for a content `s` that is valid UTF-8 and has a byte other
than space and newline, `s = lead ++ core ++ trail` with `lead` and `trail` its
longest prefix and suffix of spaces and newlines, and `Bold`, `Italic`,
`Strikethrough` and `Code` return `lead ++ m ++ core ++ m ++ trail` for their
marker `m`. -/
theorem emphasis_wraps_valid_core (s : GoString) (hv : ValidUTF8 s)
    (h : ∃ b ∈ s, isBlankByte b = false) :
    s = leadBytes s ++ coreBytes s ++ trailBytes s ∧
    BoldBytes [s] = some (leadBytes s ++ utf8 "**" ++ coreBytes s ++ utf8 "**" ++ trailBytes s) ∧
    ItalicBytes [s] = some (leadBytes s ++ utf8 "*" ++ coreBytes s ++ utf8 "*" ++ trailBytes s) ∧
    StrikethroughBytes [s] =
      some (leadBytes s ++ utf8 "~~" ++ coreBytes s ++ utf8 "~~" ++ trailBytes s) ∧
    CodeBytes s =
      some (leadBytes s ++ utf8 "\x60" ++ coreBytes s ++ utf8 "\x60" ++ trailBytes s) := by
  refine ⟨?_, fmtAroundBytes_wrapped "**" s hv h, fmtAroundBytes_wrapped "*" s hv h,
    fmtAroundBytes_wrapped "~~" s hv h, fmtAroundBytes_wrapped "\x60" s hv h⟩
  have hr : ∃ c ∈ decodeRunes s, isBlank c = false :=
    exists_rune_of_exists_byte _ (by rw [hv]; exact h)
  have hd := bytes_decomposition (decodeRunes s) hr
  rw [hv] at hd
  exact hd

theorem emphasis_wraps_valid_core_witness :
    ValidUTF8 (utf8 "  hé  ") ∧ (∃ b ∈ utf8 "  hé  ", isBlankByte b = false) ∧
    utf8 "  hé  " = utf8 "  " ++ utf8 "hé" ++ utf8 "  " ∧
    BoldBytes [utf8 "  hé  "] = some (utf8 "  **hé**  ") ∧
    ItalicBytes [utf8 "  hé  "] = some (utf8 "  *hé*  ") ∧
    StrikethroughBytes [utf8 "  hé  "] = some (utf8 "  ~~hé~~  ") ∧
    CodeBytes (utf8 "  hé  ") = some (utf8 "  \x60hé\x60  ") :=
  ⟨by decide, ⟨0x68, by decide, by decide⟩,
    emphasis_wraps_valid_core (utf8 "  hé  ") (by decide) ⟨0x68, by decide, by decide⟩⟩

/-- C4, as stated, fails on a content with an undecodable byte: for the bytes
`0xff 'x' ' '` the decomposition is `lead = ""`, `core = 0xff 'x'`, `trail = " "`,
and `Bold` returns `**`, the three bytes of U+FFFD, `x`, `**` and a space, which
is not `lead ++ "**" ++ core ++ "**" ++ trail`. -/
theorem emphasis_wraps_core_fails_undecodable :
    (∃ b ∈ ([0xff, 0x78, 0x20] : GoString), isBlankByte b = false) ∧
    leadBytes [0xff, 0x78, 0x20] = [] ∧ coreBytes [0xff, 0x78, 0x20] = [0xff, 0x78] ∧
    trailBytes [0xff, 0x78, 0x20] = [0x20] ∧
    BoldBytes [[0xff, 0x78, 0x20]] =
      some [0x2a, 0x2a, 0xef, 0xbf, 0xbd, 0x78, 0x2a, 0x2a, 0x20] ∧
    BoldBytes [[0xff, 0x78, 0x20]] ≠
      some (leadBytes [0xff, 0x78, 0x20] ++ utf8 "**" ++ coreBytes [0xff, 0x78, 0x20] ++
        utf8 "**" ++ trailBytes [0xff, 0x78, 0x20]) := by
  decide

theorem BoldBytes_utf8 (w : String) : BoldBytes [utf8 w] = (Bold [w]).map utf8 := by
  show fmtAroundBytes (utf8 "**") (utf8 w) = (fmtAround "**" w).map utf8
  rw [fmtAroundBytes_eq]
  unfold utf8
  rw [decodeRunes_encodeRunes]

theorem utf8_nested (rs : List Rune) :
    utf8 (lead (String.mk rs) ++ "****" ++ core (String.mk rs) ++ "****" ++ trail (String.mk rs)) =
      leadBytes (encodeRunes rs) ++ utf8 "****" ++ coreBytes (encodeRunes rs) ++ utf8 "****" ++
        trailBytes (encodeRunes rs) := by
  rw [leadBytes_encodeRunes, coreBytes_encodeRunes, trailBytes_encodeRunes]
  simp only [utf8_append]
  rfl

theorem BoldBytes_BoldBytes (s : GoString) (hv : ValidUTF8 s)
    (h : ∃ b ∈ s, isBlankByte b = false) :
    (BoldBytes [s]).bind (fun r => BoldBytes [r]) =
      some (leadBytes s ++ utf8 "****" ++ coreBytes s ++ utf8 "****" ++ trailBytes s) := by
  have h1 : BoldBytes [s] = (Bold [String.mk (decodeRunes s)]).map utf8 :=
    fmtAroundBytes_eq "**" s
  unfold ValidUTF8 at hv
  generalize decodeRunes s = rs at hv h1
  subst hv
  have hr := exists_rune_of_exists_byte rs h
  have hb : Bold [String.mk rs] = some (wrapped "**" (String.mk rs)) :=
    fmtAround_wrapped "**" (String.mk rs) hr
  have hbb := Bold_Bold (String.mk rs) hr
  rw [hb, Option.some_bind] at hbb
  rw [h1, hb, Option.map_some', Option.some_bind, BoldBytes_utf8, hbb, Option.map_some',
    utf8_nested]

/-- C7, as amended: wrapping twice nests the markers.  For a content `s` that is
valid UTF-8 and has a byte other than space and newline, `Bold(Bold(s))` is
`lead ++ "****" ++ core ++ "****" ++ trail`, which differs from `Bold(s)`; in
particular `Bold(Bold("x"))` is `"****x****"`. -/
theorem Bold_nests_valid (s : GoString) (hv : ValidUTF8 s)
    (h : ∃ b ∈ s, isBlankByte b = false) :
    (BoldBytes [s]).bind (fun r => BoldBytes [r]) =
      some (leadBytes s ++ utf8 "****" ++ coreBytes s ++ utf8 "****" ++ trailBytes s) ∧
    (BoldBytes [s]).bind (fun r => BoldBytes [r]) ≠ BoldBytes [s] ∧
    (BoldBytes [utf8 "x"]).bind (fun r => BoldBytes [r]) = some (utf8 "****x****") := by
  refine ⟨BoldBytes_BoldBytes s hv h, ?_, by decide⟩
  rw [BoldBytes_BoldBytes s hv h,
    show BoldBytes [s] = _ from fmtAroundBytes_wrapped "**" s hv h]
  intro heq
  have hlen := congrArg (fun o : Option GoString => o.map List.length) heq
  simp only [Option.map_some', Option.some.injEq, List.length_append] at hlen
  have e4 : (utf8 "****").length = 4 := by decide
  have e2 : (utf8 "**").length = 2 := by decide
  omega

theorem Bold_nests_valid_witness :
    ValidUTF8 (utf8 " é ") ∧ (∃ b ∈ utf8 " é ", isBlankByte b = false) ∧
    (BoldBytes [utf8 " é "]).bind (fun r => BoldBytes [r]) = some (utf8 " ****é**** ") ∧
    (BoldBytes [utf8 " é "]).bind (fun r => BoldBytes [r]) ≠ BoldBytes [utf8 " é "] ∧
    (BoldBytes [utf8 "x"]).bind (fun r => BoldBytes [r]) = some (utf8 "****x****") :=
  ⟨by decide, ⟨0xc3, by decide, by decide⟩,
    Bold_nests_valid (utf8 " é ") (by decide) ⟨0xc3, by decide, by decide⟩⟩

/-- C7, as stated, fails on a content with an undecodable byte: for the bytes
`0xff 'x'` the core is the content itself, and `Bold(Bold(s))` is `****`, the
three bytes of U+FFFD, `x` and `****`, which is not
`lead ++ "****" ++ core ++ "****" ++ trail`. -/
theorem Bold_nests_fails_undecodable :
    (∃ b ∈ ([0xff, 0x78] : GoString), isBlankByte b = false) ∧
    leadBytes [0xff, 0x78] = [] ∧ coreBytes [0xff, 0x78] = [0xff, 0x78] ∧
    trailBytes [0xff, 0x78] = [] ∧
    (BoldBytes [[0xff, 0x78]]).bind (fun r => BoldBytes [r]) =
      some [0x2a, 0x2a, 0x2a, 0x2a, 0xef, 0xbf, 0xbd, 0x78, 0x2a, 0x2a, 0x2a, 0x2a] ∧
    (BoldBytes [[0xff, 0x78]]).bind (fun r => BoldBytes [r]) ≠
      some (leadBytes [0xff, 0x78] ++ utf8 "****" ++ coreBytes [0xff, 0x78] ++ utf8 "****" ++
        trailBytes [0xff, 0x78]) := by
  decide

theorem unescapeBytes_EscapeBytes (s : GoString) (hv : ValidUTF8 s) :
    unescapeBytes (EscapeBytes s) = s := by
  unfold unescapeBytes
  rw [EscapeBytes_eq, decodeRunes_encodeRunes, unescapeRunes_flatMap]
  exact hv

/-- C18, as amended: on valid UTF-8 strings `Escape` is injective, and the scan
that drops each backslash and keeps the character after it maps `Escape s` back
to `s`. -/
theorem Escape_reversible_valid (a b : GoString) (ha : ValidUTF8 a) (hb : ValidUTF8 b) :
    (EscapeBytes a = EscapeBytes b → a = b) ∧
    unescapeBytes (EscapeBytes a) = a ∧ unescapeBytes (EscapeBytes b) = b := by
  refine ⟨?_, unescapeBytes_EscapeBytes a ha, unescapeBytes_EscapeBytes b hb⟩
  intro h
  rw [← unescapeBytes_EscapeBytes a ha, h, unescapeBytes_EscapeBytes b hb]

theorem Escape_reversible_valid_witness :
    ValidUTF8 (utf8 "a*é\\_") ∧ ValidUTF8 (utf8 "a\\*é_") ∧
    (EscapeBytes (utf8 "a*é\\_") = EscapeBytes (utf8 "a\\*é_") →
      utf8 "a*é\\_" = utf8 "a\\*é_") ∧
    unescapeBytes (EscapeBytes (utf8 "a*é\\_")) = utf8 "a*é\\_" ∧
    unescapeBytes (EscapeBytes (utf8 "a\\*é_")) = utf8 "a\\*é_" :=
  ⟨by decide, by decide,
    Escape_reversible_valid (utf8 "a*é\\_") (utf8 "a\\*é_") (by decide) (by decide)⟩

/-- C18, as stated, fails on undecodable bytes: the one-byte strings `0xff` and
`0xfe` differ, yet `Escape` returns the three bytes of U+FFFD for both, and the
scan does not give `0xff` back. -/
theorem Escape_collapses_undecodable :
    ([0xff] : GoString) ≠ [0xfe] ∧
    EscapeBytes [0xff] = [0xef, 0xbf, 0xbd] ∧ EscapeBytes [0xfe] = [0xef, 0xbf, 0xbd] ∧
    EscapeBytes [0xff] = EscapeBytes [0xfe] ∧
    unescapeBytes (EscapeBytes [0xff]) ≠ [0xff] := by
  decide

end Gom
